import Mathlib

/-!
Shallow embedding of the ncylsp wiki-link LSP core (src/handlers and
src/server.rs), used to check the natural-language specification.

Modelling conventions:
- Rust strings are modelled as `List Char`; on the ASCII inputs the claims
  are about, Rust byte indices coincide with character indices.
- Rust `char::is_whitespace` / regex `\s` / `str::trim` whitespace is
  modelled by `Char.isWhitespace` (ASCII whitespace).
- Fallible Rust code (`Result`, `Option`) becomes `Except`/`Option`.
- External collaborators (vault configuration, file system, note index,
  workspace CRUD, fuzzy scorer) are passed in as explicit parameters;
  external crates (pulldown-cmark parse, cmark render) are modelled from
  the spec and marked as such in their doc comments.
- `f64` fuzzy-match scores are modelled by `ℚ`.
-/

namespace Ncylsp

/-- Rust `str::trim_start` (leading whitespace removed). -/
def trimStart (cs : List Char) : List Char := cs.dropWhile Char.isWhitespace

/-- Rust `str::trim_end` (trailing whitespace removed). -/
def trimEnd (cs : List Char) : List Char :=
  (cs.reverse.dropWhile Char.isWhitespace).reverse

/-- Rust `str::trim`. -/
def trimWs (cs : List Char) : List Char := trimEnd (trimStart cs)

/-- Strip one trailing carriage return, as Rust `str::lines` does per line. -/
def stripCR (cs : List Char) : List Char :=
  match cs.reverse with
  | '\r' :: r => r.reverse
  | _ => cs

/-- Split on every newline character; always returns at least one piece
(`splitNl [] = [[]]`), mirroring `str::split('\n')`. -/
def splitNl : List Char → List (List Char)
  | [] => [[]]
  | c :: r =>
    if c = '\n' then [] :: splitNl r
    else
      match splitNl r with
      | [] => [[c]]
      | g :: gs => (c :: g) :: gs

/-- Rust `str::lines()` collected to a list: split on newlines, drop the
final empty piece produced by a trailing newline (or by the empty string),
and strip one trailing carriage return per line. -/
def rustLines (cs : List Char) : List (List Char) :=
  let p := splitNl cs
  (if p.getLast? = some [] then p.dropLast else p).map stripCR

/-- `Vec<&str>::join("\n")` over the line list. -/
def joinNl : List (List Char) → List Char
  | [] => []
  | [l] => l
  | l :: ls => l ++ '\n' :: joinNl ls

/-- An LSP position: zero-based line and character offset. -/
structure Pos where
  line : Nat
  character : Nat
  deriving DecidableEq, Repr

/-! ## The wiki-link locator shared by goto and hover

Both `goto.rs` and `hover_wikilink.rs` scan the cursor's line with the regex

  `\[\[\s*(?P<path>[^|\]]+?)\s*(?:\|\s*(?P<title>[^\]]+?)\s*)?\]\]`

via `captures_iter` (leftmost-first, non-overlapping) and take the first
match `m` with `m.start <= cursor <= m.end`.

Because neither `\s` nor the `path`/`title` character classes match `]`,
a match starting at a `[[` must close at the first following `]` pair:
the content between the brackets contains no `]`.  Given that content `C`
(split at its first `|` into `A` and, when a pipe is present, `B`):
- no pipe: the regex matches iff `C` is nonempty, and the downstream
  `path.trim()` equals `trim A` (the lazy path capture plus the greedy
  `\s*` fringes absorb exactly the surrounding whitespace; when `C` is
  all whitespace the capture is a single whitespace character, which also
  trims to `trim A = []`);
- pipe present: the regex matches iff both `A` and `B` are nonempty, with
  trimmed captures `trim A` and `trim B`.
`matchHere` below returns the length of the bracketed content together
with the raw `A`/`B` pieces; downstream code trims them exactly where the
Rust handlers call `.trim()`. -/

/-- Split a list at its first `'|'`, if any. -/
def splitPipe : List Char → Option (List Char × List Char)
  | [] => none
  | c :: r =>
    if c = '|' then some ([], r)
    else (splitPipe r).map (fun p => (c :: p.1, p.2))

/-- Attempt the wiki-link regex match anchored at the head of `cs`.
Returns `(j, A, B?)` where `j` is the length of the content between the
brackets (the whole match has length `j + 4`), `A` is the raw path piece
and `B?` the raw title piece.  See the derivation above. -/
def matchHere : List Char → Option (Nat × List Char × Option (List Char))
  | '[' :: '[' :: rest =>
    match rest.findIdx? (· = ']') with
    | none => none
    | some j =>
      if rest.get? (j + 1) = some ']' then
        let C := rest.take j
        match splitPipe C with
        | none => if C.isEmpty then none else some (j, C, none)
        | some p =>
          if p.1.isEmpty || p.2.isEmpty then none else some (j, p.1, some p.2)
      else none
  | _ => none

/-- One regex match: half-open character span `[start, stop)` on the line
plus the raw (untrimmed) path and title captures. -/
structure WMatch where
  start : Nat
  stop : Nat
  path : List Char
  title : Option (List Char)
  deriving DecidableEq, Repr

/-- Shift a match's span right by `n` characters. -/
def shiftM (n : Nat) (m : WMatch) : WMatch :=
  ⟨m.start + n, m.stop + n, m.path, m.title⟩

/-- `captures_iter`: scan left to right; on a match, continue after it
(non-overlapping); otherwise advance one character.  The scan consumes at
least one character per step, so running it with fuel `cs.length` (see
`scanAux`) is exact; the fuel only makes the recursion structural. -/
def scanCore : Nat → List Char → List WMatch
  | 0, _ => []
  | fuel + 1, cs =>
    match matchHere cs with
    | some t =>
      ⟨0, t.1 + 4, t.2.1, t.2.2⟩ ::
        (scanCore fuel (cs.drop (t.1 + 4))).map (shiftM (t.1 + 4))
    | none =>
      match cs with
      | [] => []
      | _ :: r => (scanCore fuel r).map (shiftM 1)

/-- The full left-to-right scan of a line. -/
def scanAux (cs : List Char) : List WMatch := scanCore cs.length cs

/-- All regex matches of the line, in order. -/
def scanMatches (line : List Char) : List WMatch := scanAux line

/-- The handlers' `for caps in re.captures_iter(line)` loop: first match
whose inclusive span contains the cursor. -/
def linkLoop (c : Nat) : List WMatch → Option WMatch
  | [] => none
  | m :: ms => if m.start ≤ c ∧ c ≤ m.stop then some m else linkLoop c ms

/-- First regex match on `line` whose span contains (inclusively) the
cursor offset `c`. -/
def containingMatch (line : List Char) (c : Nat) : Option WMatch :=
  linkLoop c (scanMatches line)

/-- The shared goto/hover locator result: the first containing match's
trimmed path and title captures; an empty trimmed path makes the handler
return `None` (both handlers `return None` there rather than scanning on). -/
def wiki_link_at (line : List Char) (c : Nat) :
    Option (List Char × Option (List Char)) :=
  match containingMatch line c with
  | none => none
  | some m =>
    if trimWs m.path = [] then none
    else some (trimWs m.path, m.title.map trimWs)

/-! ## Handler environment (external collaborators) -/

/-- External collaborators consulted by the query handlers:
`vault` is `get_vault_directory()` (configuration), `listNotes` is
`list_all_notes`, `readFile` is `fs::read_to_string`, `getTitle` is
`notemancy_core::notes::utils::get_title`. -/
structure Env where
  vault : Except (List Char) (List Char)
  listNotes : Except (List Char) (List (List Char))
  readFile : List Char → Except (List Char) (List Char)
  getTitle : List Char → Except (List Char) (List Char)

/-- `PathBuf::join` on the vault-relative paths the handlers build. -/
def pathJoin (dir p : List Char) : List Char := dir ++ '/' :: p

/-- An LSP location (uri plus range), as built by `goto_wikilink`. -/
structure Loc where
  uri : List Char
  rangeStart : Pos
  rangeEnd : Pos
  deriving DecidableEq, Repr

/-- `goto_wikilink` (src/handlers/goto.rs): out-of-range line gives `None`;
then the locator; an empty trimmed path gives `None`; a failed vault
lookup is logged and gives `None`; otherwise the location is the vault
directory joined with the path, pointing at the target's start. -/
def goto_wikilink (env : Env) (text : List Char) (pos : Pos) : Option Loc :=
  match (rustLines text).get? pos.line with
  | none => none
  | some line =>
    match wiki_link_at line pos.character with
    | none => none
    | some r =>
      match env.vault with
      | .error _ => none
      | .ok dir => some ⟨pathJoin dir r.1, ⟨0, 0⟩, ⟨0, 0⟩⟩

/-- An LSP hover (preview contents plus matched range). -/
structure Hover where
  contents : List Char
  rangeStart : Pos
  rangeEnd : Pos
  deriving DecidableEq, Repr

/-- `hover_wikilink` (src/handlers/hover_wikilink.rs): same locator as
goto; a failed vault lookup or unreadable target file gives `None`;
otherwise the hover carries the target file's full contents and the
matched span on the cursor's line. -/
def hover_wikilink (env : Env) (text : List Char) (pos : Pos) : Option Hover :=
  match (rustLines text).get? pos.line with
  | none => none
  | some line =>
    match containingMatch line pos.character with
    | none => none
    | some m =>
      if trimWs m.path = [] then none
      else
        match env.vault with
        | .error _ => none
        | .ok dir =>
          match env.readFile (pathJoin dir (trimWs m.path)) with
          | .error _ => none
          | .ok content =>
            some ⟨content, ⟨pos.line, m.start⟩, ⟨pos.line, m.stop⟩⟩

/-! ## Completion gating and completion handler -/

/-- Greatest index `i` with `l[i] = a` and `l[i+1] = b`
(Rust `str::rfind` of the two-character pattern `ab`). -/
def rfind2 (a b : Char) : List Char → Option Nat
  | [] => none
  | c :: r =>
    match rfind2 a b r with
    | some i => some (i + 1)
    | none => if c = a ∧ r.head? = some b then some 0 else none

/-- Least index with the two-character pattern `ab`
(Rust `str::find` of `ab`). -/
def find2 (a b : Char) : List Char → Option Nat
  | [] => none
  | c :: r =>
    if c = a ∧ r.head? = some b then some 0
    else (find2 a b r).map (· + 1)

/-- Least index `j ≥ s` with `l[j] = a` and `l[j+1] = b`
(`line[start_index..].find(..)` then `start_index + offset`). -/
def find2From (l : List Char) (s : Nat) (a b : Char) : Option Nat :=
  (find2 a b (l.drop s)).map (s + ·)

/-- `is_inside_wiki_link` (src/handlers/completion.rs): on the cursor's
line, take the prefix before the cursor, find the last `[[` in it; if
none, not inside; if found, look for the first `]]` from there to the end
of the line; if none, inside (unterminated); otherwise inside exactly
while the cursor is at or before the closing delimiter. -/
def is_inside_wiki_link (text : List Char) (pos : Pos) : Bool :=
  match (rustLines text).get? pos.line with
  | none => false
  | some line =>
    let pfx := line.take (min pos.character line.length)
    match rfind2 '[' '[' pfx with
    | none => false
    | some i =>
      match find2From line i ']' ']' with
      | none => true
      | some j => decide (pos.character ≤ j)

/-- One completion candidate (label, insert text, detail). -/
structure CompItem where
  label : List Char
  insertText : List Char
  detail : List Char
  deriving DecidableEq, Repr

/-- `provide_wiki_link_completions` (src/handlers/completion.rs): when the
gate is closed returns `Ok(None)`; a failed vault lookup or note listing
becomes a request-level error; notes whose title cannot be determined are
skipped; each remaining note yields label = title, insert text =
`[[title]]`, detail = the note's vault-relative path. -/
def provide_wiki_link_completions (env : Env) (text : List Char) (pos : Pos) :
    Except (List Char) (Option (List CompItem)) :=
  if is_inside_wiki_link text pos = false then .ok none
  else
    match env.vault with
    | .error e => .error e
    | .ok dir =>
      match env.listNotes with
      | .error e => .error e
      | .ok notes =>
        .ok (some (notes.filterMap (fun n =>
          match env.getTitle (pathJoin dir n) with
          | .error _ => none
          | .ok t => some ⟨t, ('[' :: '[' :: t) ++ "]]".data, n⟩)))

/-! ## Document symbols -/

/-- One document symbol: heading name, line index, and the line length
(the symbol's range spans the full line, `0 .. line.len()`). -/
structure DocSym where
  name : List Char
  line : Nat
  endChar : Nat
  deriving DecidableEq, Repr

/-- The per-line heading rule of `document_symbols`
(src/handlers/document_symbols.rs): trim leading whitespace; if the line
then starts with `'#'`, count the leading run of `'#'`; if the run length
is between 1 and 6, the name is the remainder after the run, trimmed.
(No whitespace is required after the `'#'` run.) -/
def headingOfDoc (line : List Char) : Option (List Char) :=
  let t := trimStart line
  if t.head? = some '#' then
    let level := (t.takeWhile (· = '#')).length
    if 1 ≤ level ∧ level ≤ 6 then some (trimWs (t.drop level)) else none
  else none

/-- `document_symbols`: one symbol per heading line, in order. -/
def document_symbols (text : List Char) : List DocSym :=
  (rustLines text).enum.filterMap (fun p =>
    (headingOfDoc p.2).map (fun n => ⟨n, p.1, p.2.length⟩))

/-! ## Workspace symbols -/

/-- The per-line heading rule of `get_workspace_symbols`
(regex `^\s*(#{1,6})\s+(.*)$`): leading whitespace, a run of one to six
`'#'` that is not followed by another `'#'`, at least one whitespace
character, then the capture is the rest of the line after the maximal
whitespace run (not trimmed at the end). -/
def headingOfWs (line : List Char) : Option (List Char) :=
  let t := trimStart line
  let r := (t.takeWhile (· = '#')).length
  if 1 ≤ r ∧ r ≤ 6 then
    match t.drop r with
    | [] => none
    | c :: rest =>
      if c.isWhitespace then some (rest.dropWhile Char.isWhitespace) else none
  else none

/-- One workspace symbol: heading text, containing note path, line index. -/
structure WsSym where
  name : List Char
  container : List Char
  line : Nat
  deriving DecidableEq, Repr

/-- Headings of one note's content, as workspace symbols. -/
def collectNoteSyms (note content : List Char) : List WsSym :=
  (rustLines content).enum.filterMap (fun p =>
    (headingOfWs p.2).map (fun h => ⟨h, note, p.1⟩))

/-- Read every note and collect its heading symbols; a failed read aborts
with a request-level error (the Rust code propagates it with `?`). -/
def collectSyms (env : Env) (dir : List Char) :
    List (List Char) → Except (List Char) (List WsSym)
  | [] => .ok []
  | n :: ns =>
    match env.readFile (pathJoin dir n) with
    | .error e => .error e
    | .ok content =>
      match collectSyms env dir ns with
      | .error e => .error e
      | .ok rest => .ok (collectNoteSyms n content ++ rest)

/-- Stable insertion into a score-sorted list (models the stable
`sort_by(partial_cmp)` of the scored index list). -/
def insertScored (x : Nat × ℚ) : List (Nat × ℚ) → List (Nat × ℚ)
  | [] => [x]
  | y :: ys => if x.2 < y.2 then x :: y :: ys else y :: insertScored x ys

/-- Stable sort of the scored indices by ascending score. -/
def sortScored (l : List (Nat × ℚ)) : List (Nat × ℚ) := l.foldr insertScored []

/-- The fuzzy post-processing of `get_workspace_symbols` for a non-empty
query: score every symbol name (the scorer is the external fuse-rust
matcher, passed in as `score`; `none` means rejected), sort the accepted
indices by ascending score, then keep the symbols whose index is a member
of that list.  Note the membership filter runs over the symbols in their
original order, so the computed sort order is discarded. -/
def fuzzyPost (score : List Char → List Char → Option ℚ) (query : List Char)
    (syms : List WsSym) : List WsSym :=
  let labels := syms.map WsSym.name
  let scored := labels.enum.filterMap (fun p =>
    (score query p.2).map (fun s => (p.1, s)))
  let matchedIdx := (sortScored scored).map Prod.fst
  ((syms.enum.filter (fun p => matchedIdx.contains p.1)).map Prod.snd)

/-- `get_workspace_symbols` (src/handlers/workspace_symbols.rs). -/
def get_workspace_symbols (env : Env)
    (score : List Char → List Char → Option ℚ) (query : List Char) :
    Except (List Char) (List WsSym) :=
  match env.vault with
  | .error e => .error e
  | .ok dir =>
    match env.listNotes with
    | .error e => .error e
    | .ok notes =>
      match collectSyms env dir notes with
      | .error e => .error e
      | .ok syms => .ok (if query.isEmpty then syms else fuzzyPost score query syms)

/-! ## Server wrappers (src/server.rs)

The server turns handler errors into request-level (jsonrpc) errors and
wraps successful handler results in `Ok`; `goto_definition` and `hover`
wrap their handlers' `Option` results in `Ok` unconditionally. -/

/-- `NotemancyServer::goto_definition`: always `Ok`. -/
def gotoServer (env : Env) (text : List Char) (pos : Pos) :
    Except (List Char) (Option Loc) :=
  .ok (goto_wikilink env text pos)

/-- `NotemancyServer::hover`: always `Ok`. -/
def hoverServer (env : Env) (text : List Char) (pos : Pos) :
    Except (List Char) (Option Hover) :=
  .ok (hover_wikilink env text pos)

/-- `NotemancyServer::symbol`: handler errors become request-level errors. -/
def symbolServer (env : Env) (score : List Char → List Char → Option ℚ)
    (query : List Char) : Except (List Char) (List WsSym) :=
  get_workspace_symbols env score query

/-- `NotemancyServer::completion`: handler errors become request-level
errors. -/
def completionServer (env : Env) (text : List Char) (pos : Pos) :
    Except (List Char) (Option (List CompItem)) :=
  provide_wiki_link_completions env text pos

/-! ## Markdown events and the wiki-link transformer
(src/handlers/formatting.rs) -/

/-- `pulldown_cmark::LinkType`, discriminating wiki-links (with their
pothole flag) from every other link kind (collapsed to a numeric tag). -/
inductive MdLinkType where
  | wikiLink (hasPothole : Bool)
  | otherKind (k : Nat)
  deriving DecidableEq, Repr

/-- `pulldown_cmark::TagEnd`, discriminating link ends. -/
inductive MdTagEnd where
  | link
  | nonLink (k : Nat)
  deriving DecidableEq, Repr

/-- A markdown structural event, as far as the transformer inspects it:
link starts carry the link type, destination url, title and id fields of
`Tag::Link`; other start tags, text runs, end tags and every other event
kind are kept opaque under numeric tags. -/
inductive MdEvent where
  | startLink (lt : MdLinkType) (destUrl : List Char) (title : List Char)
      (id : List Char)
  | startOther (k : Nat)
  | text (s : List Char)
  | endTag (e : MdTagEnd)
  | otherEv (k : Nat)
  deriving DecidableEq, Repr

/-- The transformer state (`enum State` in formatting.rs). -/
inductive TState where
  | normal
  | inWiki (dest : List Char) (title : List Char)
  deriving DecidableEq, Repr

/-- The literal text a closing wiki-link emits:
`"[[" + dest + ("|" + title if title non-empty) + "]]"`. -/
def wikiText (dest title : List Char) : List Char :=
  ('[' :: '[' :: dest) ++ (if title.isEmpty then [] else '|' :: title) ++ "]]".data

/-- `WikiLinkTransformer::next` iterated over the whole input stream
(the pull loop of the `Iterator` impl in formatting.rs):
in `normal` state a wiki-link start is consumed (entering `inWiki` with
the event's destination and initial title), any other link start is
re-emitted with its id field replaced by the empty string, and every
other event passes through; in `inWiki` state text events are appended to
the accumulated title, a link end emits the single literal text event and
returns to `normal`, and every other event is suppressed.  End of input
ends the output stream in either state. -/
def transformFrom : TState → List MdEvent → List MdEvent
  | _, [] => []
  | .normal, .startLink lt d t _ :: evs =>
    match lt with
    | .wikiLink _ => transformFrom (.inWiki d t) evs
    | .otherKind k => .startLink (.otherKind k) d t [] :: transformFrom .normal evs
  | .normal, e :: evs => e :: transformFrom .normal evs
  | .inWiki d t, .text s :: evs => transformFrom (.inWiki d (t ++ s)) evs
  | .inWiki d t, .endTag .link :: evs =>
    .text (wikiText d t) :: transformFrom .normal evs
  | .inWiki d t, _ :: evs => transformFrom (.inWiki d t) evs

/-- The transformer run from the initial `normal` state
(`WikiLinkTransformer::new`). -/
def transformAll (evs : List MdEvent) : List MdEvent :=
  transformFrom .normal evs

/-- Modelled from the spec: the rendering of one event by the external
cmark renderer (`pulldown_cmark_to_cmark`), restricted to what reaches it
here — for wiki-link-only documents the transformed stream consists of
text events only, which the renderer emits verbatim (the escape it may
introduce before a wiki-link opening is undone by `format_markdown`'s
post-processing, see `stripEsc`); other events' renderings are irrelevant
to the claims and modelled as empty. -/
def renderEvent : MdEvent → List Char
  | .text s => s
  | _ => []

/-- Modelled from the spec: the external cmark renderer over a stream. -/
def renderEvents (evs : List MdEvent) : List Char := (evs.map renderEvent).flatten

/-- `formatted.replace(r"\[[", "[[")` — strip a renderer-introduced escape
immediately preceding a wiki-link opening (left-to-right, non-overlapping). -/
def stripEsc : List Char → List Char
  | '\\' :: '[' :: '[' :: r => '[' :: '[' :: stripEsc r
  | c :: r => c :: stripEsc r
  | [] => []

/-- Modelled from the spec: the external pulldown-cmark parser with
`ENABLE_WIKILINKS`, restricted to wiki-link syntax (the only markdown
construct in the texts the round-trip claim quantifies over).  A
`[[target|title]]` construct parses to a wiki-link start (destination =
the trimmed target), a text event carrying the trimmed display title, and
a link end; a title-less `[[target]]` construct parses to the wiki-link
start and end with no inner text event (per the spec, the accumulated
title of such a link stays empty so the transformer re-emits `[[target]]`);
any other character is a one-character text run.  Wiki-link syntax
recognition reuses `matchHere`, the same grammar the locator uses. -/
def mdParseCore : Nat → List Char → List MdEvent
  | 0, _ => []
  | fuel + 1, cs =>
    match matchHere cs with
    | some t =>
      match t.2.2 with
      | none =>
        .startLink (.wikiLink false) (trimWs t.2.1) [] [] :: .endTag .link ::
          mdParseCore fuel (cs.drop (t.1 + 4))
      | some ti =>
        .startLink (.wikiLink true) (trimWs t.2.1) [] [] :: .text (trimWs ti) ::
          .endTag .link :: mdParseCore fuel (cs.drop (t.1 + 4))
    | none =>
      match cs with
      | [] => []
      | c :: r => .text [c] :: mdParseCore fuel r

/-- The parser run with exact fuel (each step consumes at least one
character, so `cs.length` steps suffice; the fuel only makes the
recursion structural). -/
def mdParseText (cs : List Char) : List MdEvent := mdParseCore cs.length cs

/-- `format_markdown` (one-argument, src/handlers/formatting.rs): parse,
transform, render, then strip renderer escapes before wiki-link openings.
The parse and render stages are the spec-modelled external collaborators
above; the transformer is the translated repository code. -/
def format_markdown (text : List Char) : List Char :=
  stripEsc (renderEvents (transformAll (mdParseText text)))

/-! ## Custom directive commands (src/handlers/custom_commands.rs) -/

/-- The three workspace-grouping directive mnemonics. -/
inductive Cmd where
  | nw
  | atw
  | dfw
  deriving DecidableEq, Repr

/-- Match the command alternation `(nw|atw|dfw)` at the head of the list. -/
def matchCmd : List Char → Option (Cmd × List Char)
  | 'n' :: 'w' :: r => some (.nw, r)
  | 'a' :: 't' :: 'w' :: r => some (.atw, r)
  | 'd' :: 'f' :: 'w' :: r => some (.dfw, r)
  | _ => none

/-- The directive regex `^%%(nw|atw|dfw)\s+(\S+)$` applied to a (trimmed)
line: `%%`, a command mnemonic, at least one whitespace character, then a
non-empty whitespace-free argument reaching the end of the line. -/
def parseDirective (l : List Char) : Option (Cmd × List Char) :=
  match l with
  | '%' :: '%' :: rest =>
    match matchCmd rest with
    | none => none
    | some p =>
      match p.2 with
      | [] => none
      | x :: _ =>
        if x.isWhitespace then
          let tok := p.2.dropWhile Char.isWhitespace
          if tok ≠ [] ∧ tok.all (fun ch => ¬ ch.isWhitespace) then some (p.1, tok)
          else none
        else none
  | _ => none

/-- The workspace CRUD collaborator
(`notemancy_core::workspaces::crud`): each operation takes the vault
directory, the workspace name and the current file path. -/
structure CrudEnv where
  createWs : List Char → List Char → List Char → Except (List Char) Unit
  appendWs : List Char → List Char → List Char → Except (List Char) Unit
  removeWs : List Char → List Char → List Char → Except (List Char) Unit

/-- Execute one parsed directive: the matching CRUD call is made and its
error, if any, is logged and otherwise ignored (both arms return `()`). -/
def runDirective (crud : CrudEnv) (vaultDir filePath : List Char) :
    Cmd × List Char → Unit
  | (.nw, w) =>
    match crud.createWs vaultDir w filePath with
    | .error _ => ()
    | .ok _ => ()
  | (.atw, w) =>
    match crud.appendWs vaultDir w filePath with
    | .error _ => ()
    | .ok _ => ()
  | (.dfw, w) =>
    match crud.removeWs vaultDir w filePath with
    | .error _ => ()
    | .ok _ => ()

/-- `process_custom_commands` (src/handlers/custom_commands.rs): a failed
vault lookup or an invalid file uri is a request-level error; otherwise
every line whose trimmed form matches the directive regex is executed
(its CRUD outcome discarded) and dropped, every other line is kept
verbatim, and the kept lines are re-joined with newlines. -/
def process_custom_commands (vault : Except (List Char) (List Char))
    (filePath : Except (List Char) (List Char)) (crud : CrudEnv)
    (text : List Char) : Except (List Char) (List Char) :=
  match vault with
  | .error e => .error e
  | .ok dir =>
    match filePath with
    | .error e => .error e
    | .ok fp =>
      .ok (joinNl ((rustLines text).filterMap (fun l =>
        match parseDirective (trimWs l) with
        | some d =>
          let u := runDirective crud dir fp d
          none
        | none => some l)))

/-- Modelled from the spec: the two-argument `format_markdown` wrapper
that `NotemancyServer::formatting` invokes (its definition is not among
the source files; only its caller and both stages are).  Per the spec's
formatting contract it strips and executes the custom directive lines via
`process_custom_commands` and re-renders the remaining text through the
parse → transform → render pipeline. -/
def format_markdown2 (vault filePath : Except (List Char) (List Char))
    (crud : CrudEnv) (text : List Char) : Except (List Char) (List Char) :=
  match process_custom_commands vault filePath crud text with
  | .error e => .error e
  | .ok cleaned => .ok (format_markdown cleaned)

/-! ## Abstract documents for the round-trip and locator claims -/

/-- A wiki-link-only markdown document: an alternation of plain text runs
and wiki-link constructs. -/
inductive Seg where
  | plain (s : List Char)
  | link (target : List Char) (title : Option (List Char))
  deriving DecidableEq, Repr

/-- Well-formedness for the round-trip claim: plain runs are non-empty and
contain no `'['` (no link openings) and no `'\\'` (no escapes); targets
are non-empty, already trimmed, and free of `'['`, `']'`, `'|'`, `'\\'`;
titles are non-empty, already trimmed, and free of `'['`, `']'`, `'\\'`. -/
def segWF : Seg → Bool
  | .plain s => !s.isEmpty && s.all (fun c => c != '[' && c != '\\')
  | .link t ti =>
    (!t.isEmpty && (trimWs t == t) &&
      t.all (fun c => c != '[' && c != ']' && c != '|' && c != '\\')) &&
    (match ti with
     | none => true
     | some s =>
       !s.isEmpty && (trimWs s == s) &&
         s.all (fun c => c != '[' && c != ']' && c != '\\'))

/-- Document well-formedness. -/
def docWF (d : List Seg) : Bool := d.all segWF

/-- The concrete text of one segment. -/
def segText : Seg → List Char
  | .plain s => s
  | .link t none => ('[' :: '[' :: t) ++ "]]".data
  | .link t (some ti) => ('[' :: '[' :: t) ++ '|' :: ti ++ "]]".data

/-- The concrete text of a document. -/
def docText (d : List Seg) : List Char := (d.map segText).flatten

/-- One line, decomposed for the locator claim: an alternation of gap text
and wiki-link occurrences (the occurrence pieces are raw, i.e. possibly
whitespace-padded). -/
inductive LSeg where
  | gap (g : List Char)
  | occ (p : List Char) (ti : Option (List Char))
  deriving DecidableEq, Repr

/-- Well-formedness for the locator claim: gaps contain no `'['`;
occurrence paths are non-empty with a non-empty trim and free of `']'`
and `'|'`; occurrence titles are non-empty and free of `']'`. -/
def lsegWF : LSeg → Bool
  | .gap g => g.all (· != '[')
  | .occ p ti =>
    (!p.isEmpty && !(trimWs p).isEmpty && p.all (fun c => c != ']' && c != '|')) &&
    (match ti with
     | none => true
     | some s => !s.isEmpty && s.all (· != ']'))

/-- Line well-formedness. -/
def lineWF (l : List LSeg) : Bool := l.all lsegWF

/-- The concrete text of one line segment. -/
def lsegText : LSeg → List Char
  | .gap g => g
  | .occ p none => ('[' :: '[' :: p) ++ "]]".data
  | .occ p (some ti) => ('[' :: '[' :: p) ++ '|' :: ti ++ "]]".data

/-- The concrete text of a decomposed line. -/
def lineOf (l : List LSeg) : List Char := (l.map lsegText).flatten

/-- The spans and raw captures of the occurrences of a decomposed line,
in order, with absolute character offsets. -/
def occList : List LSeg → List WMatch
  | [] => []
  | .gap g :: rest => (occList rest).map (shiftM g.length)
  | .occ p ti :: rest =>
    ⟨0, (lsegText (.occ p ti)).length, p, ti⟩ ::
      (occList rest).map (shiftM (lsegText (.occ p ti)).length)

/-- The occurrence spans of a decomposed line are chained: each starts at
or after `base`, is non-degenerate, and the next starts at or after its
end. -/
def chainedFrom : Nat → List WMatch → Prop
  | _, [] => True
  | b, m :: ms => b ≤ m.start ∧ m.start < m.stop ∧ chainedFrom m.stop ms

/-! ## Spec-side characterizations used by the theorems -/

/-- Is this event a link-start event of wiki-link kind? -/
def isWikiStart : MdEvent → Bool
  | .startLink (.wikiLink _) _ _ _ => true
  | _ => false

/-- The amended document-symbol heading rule, stated independently: after
leading whitespace the line starts with a run of exactly `k` `'#'`
characters for some `k` between 1 and 6 (whitespace after the run not
required); the name is the remainder after the run, trimmed. -/
def headingAmended (line : List Char) : Option (List Char) :=
  let t := trimStart line
  match (List.range' 1 6).find? (fun k =>
      (List.replicate k '#').isPrefixOf t &&
      !(List.replicate (k + 1) '#').isPrefixOf t) with
  | some k => some (trimWs (t.drop k))
  | none => none

/-- Document symbols as the amended claim describes them: one symbol per
heading line (rule `headingAmended`), named by the trimmed remainder,
with the range spanning the full line. -/
def specDocSymbols (text : List Char) : List DocSym :=
  (rustLines text).enum.filterMap (fun p =>
    (headingAmended p.2).map (fun n => ⟨n, p.1, p.2.length⟩))

/-- The two-character pattern `ab` sits at index `i` of the line. -/
def pairAt (l : List Char) (i : Nat) (a b : Char) : Prop :=
  l.get? i = some a ∧ l.get? (i + 1) = some b

/-- `'[['` sits at index `i` of the line. -/
def openAt (l : List Char) (i : Nat) : Prop := pairAt l i '[' '['

/-- `']]'` sits at index `i` of the line. -/
def closeAt (l : List Char) (i : Nat) : Prop := pairAt l i ']' ']'

/-- The completion-gating condition exactly as the claim words it: on the
cursor's line, the prefix before the cursor contains a `'[['` whose
nearest (rightmost) position is `i`, and either no `']]'` occurs at or
after `i` on the line, or the cursor is at or before the first such
closing delimiter. -/
def gateSpec (text : List Char) (pos : Pos) : Prop :=
  ∃ line, (rustLines text).get? pos.line = some line ∧
    ∃ i, openAt (line.take (min pos.character line.length)) i ∧
      (∀ k, openAt (line.take (min pos.character line.length)) k → k ≤ i) ∧
      ((∀ j, i ≤ j → ¬ closeAt line j) ∨
        ∃ j, i ≤ j ∧ closeAt line j ∧
          (∀ k, i ≤ k → closeAt line k → j ≤ k) ∧ pos.character ≤ j)

/-! # Theorems -/

/-- C9: for every document text and cursor position whose line index is at
or beyond the number of lines, goto returns no location, hover returns no
hover, the completion gate reports not-inside-a-link and the completion
handler returns `Ok(None)`; none of them errors. -/
theorem out_of_range_safe (env : Env) (text : List Char) (pos : Pos)
    (h : (rustLines text).length ≤ pos.line) :
    goto_wikilink env text pos = none ∧ hover_wikilink env text pos = none ∧
    is_inside_wiki_link text pos = false ∧
    provide_wiki_link_completions env text pos = .ok none := by
  have hg : (rustLines text)[pos.line]? = none := List.getElem?_eq_none h
  refine ⟨?_, ?_, ?_, ?_⟩
  · simp [goto_wikilink, hg]
  · simp [hover_wikilink, hg]
  · simp [is_inside_wiki_link, hg]
  · simp [provide_wiki_link_completions, is_inside_wiki_link, hg]

/-- Witness for C9 at a concrete out-of-range position. -/
theorem out_of_range_safe_witness :
    (rustLines "a".data).length ≤ 5 ∧
    (goto_wikilink ⟨.ok [], .ok [], fun _ => .ok [], fun _ => .ok []⟩
        "a".data ⟨5, 0⟩ = none ∧
      hover_wikilink ⟨.ok [], .ok [], fun _ => .ok [], fun _ => .ok []⟩
        "a".data ⟨5, 0⟩ = none ∧
      is_inside_wiki_link "a".data ⟨5, 0⟩ = false ∧
      provide_wiki_link_completions ⟨.ok [], .ok [], fun _ => .ok [], fun _ => .ok []⟩
        "a".data ⟨5, 0⟩ = .ok none) :=
  ⟨by decide, out_of_range_safe _ "a".data ⟨5, 0⟩ (by decide)⟩

/-- C10: the transformed event stream contains no wiki-link start event,
from either state and for every input stream. -/
theorem no_wiki_start_in_output (st : TState) (evs : List MdEvent) :
    (transformFrom st evs).all (fun e => !isWikiStart e) = true := by
  induction st, evs using transformFrom.induct <;>
    simp_all [transformFrom, isWikiStart]

/-- C7 counterexample: in the `normal` state, a non-wiki link-start event
carrying a non-empty reference id is re-emitted with its id field
replaced by the empty string, not unchanged. -/
theorem passthrough_id_reset :
    transformAll [.startLink (.otherKind 0) "d".data "t".data "ref".data] =
      [.startLink (.otherKind 0) "d".data "t".data []] ∧
    transformAll [.startLink (.otherKind 0) "d".data "t".data "ref".data] ≠
      [.startLink (.otherKind 0) "d".data "t".data "ref".data] := by
  exact ⟨rfl, by decide⟩

/-- C7 amended: in the `normal` state the transformer re-emits a non-wiki
link-start event with its link kind, destination and title preserved, but
with the id field replaced by the empty string. -/
theorem passthrough_link_start (k : Nat) (d t i : List Char)
    (evs : List MdEvent) :
    transformFrom .normal (.startLink (.otherKind k) d t i :: evs) =
      .startLink (.otherKind k) d t [] :: transformFrom .normal evs := rfl

/-- C5 counterexample: with the vault configuration failing, a goto/hover
request whose cursor does sit on a wiki-link (so the configuration is
actually consulted) is answered `Ok(None)` — the configuration error does
not cross the protocol boundary as a request-level error, contradicting
the claim that it does for every query. -/
theorem goto_hover_absorb_config_error :
    wiki_link_at "[[a]]".data 2 = some ("a".data, none) ∧
    gotoServer ⟨.error "no conf".data, .ok [], fun _ => .error [], fun _ => .error []⟩
      "[[a]]".data ⟨0, 2⟩ = .ok none ∧
    hoverServer ⟨.error "no conf".data, .ok [], fun _ => .error [], fun _ => .error []⟩
      "[[a]]".data ⟨0, 2⟩ = .ok none := by
  exact ⟨by decide, rfl, rfl⟩

/-- C5 amended: completion and workspace-symbols surface configuration
errors as request-level errors (completion only when its gate is open —
with the gate closed it answers `Ok(None)` even under a broken
configuration); goto and hover never produce a request-level error, for
any environment; so not-found conditions never error anywhere, and
configuration errors error exactly in completion and workspace-symbols. -/
theorem error_propagation_amended (env env2 : Env)
    (score : List Char → List Char → Option ℚ)
    (text text2 : List Char) (pos pos2 : Pos) (q e : List Char)
    (hv : env.vault = .error e)
    (h1 : is_inside_wiki_link text pos = true)
    (h2 : is_inside_wiki_link text2 pos2 = false) :
    completionServer env text pos = .error e ∧
    symbolServer env score q = .error e ∧
    completionServer env text2 pos2 = .ok none ∧
    (gotoServer env2 text pos).isOk = true ∧
    (hoverServer env2 text pos).isOk = true := by
  refine ⟨?_, ?_, ?_, rfl, rfl⟩
  · simp [completionServer, provide_wiki_link_completions, h1, hv]
  · simp [symbolServer, get_workspace_symbols, hv]
  · simp [completionServer, provide_wiki_link_completions, h2]

/-- Witness for C5 amended at a concrete broken-configuration
environment, an on-link cursor and an off-link cursor. -/
theorem error_propagation_amended_witness :
    (⟨.error "no conf".data, .ok [], fun _ => .error [], fun _ => .error []⟩ :
        Env).vault = .error "no conf".data ∧
    is_inside_wiki_link "[[a]]".data ⟨0, 2⟩ = true ∧
    is_inside_wiki_link "x".data ⟨0, 0⟩ = false ∧
    (completionServer ⟨.error "no conf".data, .ok [], fun _ => .error [], fun _ => .error []⟩
        "[[a]]".data ⟨0, 2⟩ = .error "no conf".data ∧
      symbolServer ⟨.error "no conf".data, .ok [], fun _ => .error [], fun _ => .error []⟩
        (fun _ _ => none) "w".data = .error "no conf".data ∧
      completionServer ⟨.error "no conf".data, .ok [], fun _ => .error [], fun _ => .error []⟩
        "x".data ⟨0, 0⟩ = .ok none ∧
      (gotoServer ⟨.error "no conf".data, .ok [], fun _ => .error [], fun _ => .error []⟩
        "[[a]]".data ⟨0, 2⟩).isOk = true ∧
      (hoverServer ⟨.error "no conf".data, .ok [], fun _ => .error [], fun _ => .error []⟩
        "[[a]]".data ⟨0, 2⟩).isOk = true) :=
  ⟨rfl, by decide, by decide,
    error_propagation_amended _ _ (fun _ _ => none) "[[a]]".data "x".data
      ⟨0, 2⟩ ⟨0, 0⟩ "w".data "no conf".data rfl (by decide) (by decide)⟩

/-- C2 (the code evaluated at the failing input): with a scorer that
accepts the first corpus heading `"bb"` with score 2, the second `"cc"`
with score 1, and rejects the third `"zz"`, `get_workspace_symbols`
returns the accepted symbols in their original corpus order
(`bb` before `cc`); the score-ascending order that the claim (and the
code's own — subsequently discarded — `sort_by`, reproduced here by
`sortScored`) prescribes would list `cc` first.  Rejected headings are
dropped, as the claim says. -/
theorem workspace_symbols_order_bug :
    get_workspace_symbols
      ⟨.ok "v".data, .ok ["n".data],
       fun p => if p = pathJoin "v".data "n".data
         then .ok "# bb\n# cc\n# zz".data else .error [],
       fun _ => .error []⟩
      (fun _ l => if l = "bb".data then some 2
        else if l = "cc".data then some 1 else none)
      "q".data =
      .ok [⟨"bb".data, "n".data, 0⟩, ⟨"cc".data, "n".data, 1⟩] ∧
    sortScored [(0, 2), (1, 1)] = [(1, 1), (0, 2)] ∧
    ([⟨"bb".data, "n".data, 0⟩, ⟨"cc".data, "n".data, 1⟩] : List WsSym) ≠
      [⟨"cc".data, "n".data, 1⟩, ⟨"bb".data, "n".data, 0⟩] :=
  ⟨rfl, rfl, by decide⟩

/-- C3 counterexample: the line `"#Foo"` has no whitespace after its
`'#'` marker, yet `document_symbols` emits a symbol for it (named
`"Foo"`), contradicting the claim that only marker-then-whitespace lines
yield symbols. -/
theorem document_symbols_no_space_heading :
    document_symbols "#Foo".data = [⟨"Foo".data, 0, 4⟩] := by decide

/-- The head of a `dropWhile` residue fails the predicate. -/
theorem dropWhile_head_not (p : Char → Bool) (l : List Char) (c : Char)
    (h : (l.dropWhile p).head? = some c) : p c = false := by
  induction l with
  | nil => simp [List.dropWhile] at h
  | cons a r ih =>
    by_cases hp : p a = true
    · rw [List.dropWhile_cons_of_pos hp] at h
      exact ih h
    · rw [List.dropWhile_cons_of_neg hp] at h
      simp only [List.head?_cons, Option.some_inj] at h
      subst h
      simpa using hp

/-- Every list decomposes as the `'#'`-replicate of its leading hash-run
length followed by the run-free remainder. -/
theorem hash_run_decomp (t : List Char) :
    t = List.replicate ((t.takeWhile (· = '#')).length) '#' ++
      t.dropWhile (· = '#') := by
  conv_lhs => rw [← List.takeWhile_append_dropWhile (· = '#') t]
  congr 1
  refine List.eq_replicate_length.mpr (fun b hb => ?_)
  simpa using List.mem_takeWhile_imp hb

/-- A shorter hash replicate is a prefix of a longer one with anything
appended. -/
theorem replicate_hash_isPrefix (k r : Nat) (h : k ≤ r) (u : List Char) :
    (List.replicate k '#').isPrefixOf (List.replicate r '#' ++ u) = true := by
  refine List.isPrefixOf_iff_prefix.mpr ?_
  exact ⟨List.replicate (r - k) '#' ++ u, by
    rw [← List.append_assoc, ← List.replicate_add, Nat.add_sub_cancel' h]⟩

/-- A hash replicate longer than the leading run is not a prefix. -/
theorem replicate_hash_not_isPrefix (k r : Nat) (hk : r < k) (u : List Char)
    (hu : u.head? ≠ some '#') :
    (List.replicate k '#').isPrefixOf (List.replicate r '#' ++ u) = false := by
  by_contra hcon
  have hpre : List.replicate k '#' <+: List.replicate r '#' ++ u :=
    List.isPrefixOf_iff_prefix.mp (by simpa using hcon)
  have hstep : List.replicate (r + 1) '#' <+: List.replicate r '#' ++ u := by
    refine List.IsPrefix.trans ?_ hpre
    exact ⟨List.replicate (k - (r + 1)) '#', by
      rw [← List.replicate_add, Nat.add_sub_cancel' hk]⟩
  rw [List.replicate_succ', List.prefix_append_right_inj] at hstep
  rcases hstep with ⟨v, hv⟩
  apply hu
  rw [← hv]
  rfl

/-- The hash run of a decomposed list is exactly its replicate part. -/
theorem takeWhile_hash_of_decomp (r : Nat) (u : List Char)
    (hu : u.head? ≠ some '#') :
    (List.replicate r '#' ++ u).takeWhile (· = '#') = List.replicate r '#' := by
  induction r with
  | zero =>
    cases u with
    | nil => rfl
    | cons a l =>
      have ha : (a = '#') = False := by
        simp only [List.head?_cons] at hu
        simp only [eq_iff_iff, iff_false]
        intro hcon
        exact hu (by rw [hcon])
      simp [List.takeWhile_cons, ha]
  | succ n ih =>
    simp [List.replicate_succ, List.takeWhile_cons, ih]

/-- The per-line heading rules of the code (`headingOfDoc`) and of the
amended claim (`headingAmended`) agree on every line. -/
theorem headingOfDoc_eq_amended (line : List Char) :
    headingOfDoc line = headingAmended line := by
  unfold headingOfDoc headingAmended
  obtain ⟨r, u, hu, hdec⟩ :
      ∃ r u, u.head? ≠ some '#' ∧
        trimStart line = List.replicate r '#' ++ u := by
    refine ⟨_, _, ?_, hash_run_decomp (trimStart line)⟩
    intro hcon
    have := dropWhile_head_not (· = '#') (trimStart line) '#' hcon
    simp at this
  rw [hdec]
  have htw : (List.replicate r '#' ++ u).takeWhile (· = '#') =
      List.replicate r '#' := takeWhile_hash_of_decomp r u hu
  have hlen : ((List.replicate r '#' ++ u).takeWhile (· = '#')).length = r := by
    rw [htw, List.length_replicate]
  have hdrop : (List.replicate r '#' ++ u).drop r = u := by
    have h := List.drop_left (List.replicate r '#') u
    rwa [List.length_replicate] at h
  have hfk : ∀ k, ((List.replicate k '#').isPrefixOf (List.replicate r '#' ++ u) &&
      !(List.replicate (k + 1) '#').isPrefixOf (List.replicate r '#' ++ u)) =
        decide (k = r) := by
    intro k
    rcases Nat.lt_trichotomy k r with hlt | heq | hgt
    · have h2 : (List.replicate (k + 1) '#').isPrefixOf
          (List.replicate r '#' ++ u) = true :=
        replicate_hash_isPrefix _ _ hlt u
      simp [h2, Nat.ne_of_lt hlt]
    · subst heq
      have h1 : (List.replicate k '#').isPrefixOf
          (List.replicate k '#' ++ u) = true :=
        replicate_hash_isPrefix _ _ (Nat.le_refl k) u
      have h2 : (List.replicate (k + 1) '#').isPrefixOf
          (List.replicate k '#' ++ u) = false :=
        replicate_hash_not_isPrefix _ _ (Nat.lt_succ_self k) u hu
      simp [h1, h2]
    · have h1 : (List.replicate k '#').isPrefixOf
          (List.replicate r '#' ++ u) = false :=
        replicate_hash_not_isPrefix _ _ hgt u hu
      simp [h1, Nat.ne_of_gt hgt]
  simp only [hfk, hlen, hdrop]
  have hrange : List.range' 1 6 = [1, 2, 3, 4, 5, 6] := rfl
  rw [hrange]
  rcases Nat.lt_or_ge r 7 with h7 | h7
  · interval_cases r <;> simp_all [List.find?, List.replicate_succ]
  · have hnone :
        List.find? (fun k => decide (k = r)) [1, 2, 3, 4, 5, 6] = none := by
      rw [List.find?_eq_none]
      intro k hk
      simp at hk ⊢
      omega
    rw [hnone]
    rcases r with _ | n
    · omega
    · simp [List.replicate_succ]
      omega

/-- C3 amended: `document_symbols` returns exactly one symbol for each
line whose first non-whitespace character begins a run of one to six
`'#'` characters (whitespace after the run is not required), named by the
trimmed remainder after the run, spanning the full line; a line whose
leading run has seven or more `'#'` yields no symbol. -/
theorem document_symbols_characterization (text : List Char) :
    document_symbols text = specDocSymbols text := by
  unfold document_symbols specDocSymbols
  simp only [headingOfDoc_eq_amended]

/-- A two-character pattern at a successor index looks into the tail. -/
theorem pairAt_cons_succ (c : Char) (r : List Char) (k : Nat) (a b : Char) :
    pairAt (c :: r) (k + 1) a b ↔ pairAt r k a b := Iff.rfl

/-- A two-character pattern at index zero of a cons cell. -/
theorem pairAt_cons_zero (c : Char) (r : List Char) (a b : Char) :
    pairAt (c :: r) 0 a b ↔ (c = a ∧ r.head? = some b) := by
  cases r <;> simp [pairAt, List.get?]

/-- `rfind2` fails exactly when the pattern occurs nowhere. -/
theorem rfind2_none_iff (a b : Char) (l : List Char) :
    rfind2 a b l = none ↔ ∀ k, ¬ pairAt l k a b := by
  induction l with
  | nil => simp [rfind2, pairAt]
  | cons c r ih =>
    constructor
    · intro h k
      cases hr : rfind2 a b r with
      | some i => rw [rfind2, hr] at h; simp at h
      | none =>
        rw [rfind2, hr] at h
        by_cases hc : c = a ∧ r.head? = some b
        · rw [if_pos hc] at h; simp at h
        · cases k with
          | zero => rw [pairAt_cons_zero]; exact hc
          | succ m => rw [pairAt_cons_succ]; exact (ih.mp hr) m
    · intro h
      have hr : rfind2 a b r = none := ih.mpr (fun m => by
        have hm := h (m + 1)
        rwa [pairAt_cons_succ] at hm)
      have h0 := h 0
      rw [pairAt_cons_zero] at h0
      rw [rfind2, hr, if_neg h0]

/-- `rfind2` finds exactly the greatest occurrence of the pattern. -/
theorem rfind2_some_iff (a b : Char) (l : List Char) (i : Nat) :
    rfind2 a b l = some i ↔
      (pairAt l i a b ∧ ∀ k, pairAt l k a b → k ≤ i) := by
  induction l generalizing i with
  | nil => simp [rfind2, pairAt]
  | cons c r ih =>
    cases hr : rfind2 a b r with
    | some m =>
      obtain ⟨hp, hmax⟩ := (ih m).mp hr
      constructor
      · intro h
        rw [rfind2, hr] at h
        have hi : i = m + 1 := by simpa using h.symm
        subst hi
        refine ⟨(pairAt_cons_succ c r m a b).mpr hp, ?_⟩
        intro k hk
        cases k with
        | zero => omega
        | succ n =>
          rw [pairAt_cons_succ] at hk
          have := hmax n hk
          omega
      · rintro ⟨hpi, hmaxi⟩
        rw [rfind2, hr]
        have hple : m + 1 ≤ i := hmaxi (m + 1) ((pairAt_cons_succ c r m a b).mpr hp)
        cases i with
        | zero => omega
        | succ n =>
          rw [pairAt_cons_succ] at hpi
          have h1 := hmax n hpi
          have h2 : n = m := by omega
          subst h2
          rfl
    | none =>
      have hnone := (rfind2_none_iff a b r).mp hr
      by_cases hc : c = a ∧ r.head? = some b
      · constructor
        · intro h
          rw [rfind2, hr, if_pos hc] at h
          have hi : i = 0 := by simpa using h.symm
          subst hi
          refine ⟨(pairAt_cons_zero c r a b).mpr hc, ?_⟩
          intro k hk
          cases k with
          | zero => exact Nat.le_refl 0
          | succ n =>
            rw [pairAt_cons_succ] at hk
            exact absurd hk (hnone n)
        · rintro ⟨hpi, hmaxi⟩
          rw [rfind2, hr, if_pos hc]
          cases i with
          | zero => rfl
          | succ n =>
            rw [pairAt_cons_succ] at hpi
            exact absurd hpi (hnone n)
      · constructor
        · intro h
          rw [rfind2, hr, if_neg hc] at h
          simp at h
        · rintro ⟨hpi, _⟩
          cases i with
          | zero =>
            rw [pairAt_cons_zero] at hpi
            exact absurd hpi hc
          | succ n =>
            rw [pairAt_cons_succ] at hpi
            exact absurd hpi (hnone n)

/-- `find2` fails exactly when the pattern occurs nowhere. -/
theorem find2_none_iff (a b : Char) (l : List Char) :
    find2 a b l = none ↔ ∀ k, ¬ pairAt l k a b := by
  induction l with
  | nil => simp [find2, pairAt]
  | cons c r ih =>
    by_cases hc : c = a ∧ r.head? = some b
    · constructor
      · intro h
        rw [find2, if_pos hc] at h
        simp at h
      · intro h
        exact absurd ((pairAt_cons_zero c r a b).mpr hc) (h 0)
    · rw [find2, if_neg hc]
      constructor
      · intro h k
        have hr : find2 a b r = none := by
          cases hfr : find2 a b r with
          | none => rfl
          | some m => rw [hfr] at h; simp at h
        cases k with
        | zero => rw [pairAt_cons_zero]; exact hc
        | succ m => rw [pairAt_cons_succ]; exact (ih.mp hr) m
      · intro h
        have hr : find2 a b r = none := ih.mpr (fun m => by
          have hm := h (m + 1)
          rwa [pairAt_cons_succ] at hm)
        rw [hr]
        rfl

/-- `find2` finds exactly the least occurrence of the pattern. -/
theorem find2_some_iff (a b : Char) (l : List Char) (j : Nat) :
    find2 a b l = some j ↔
      (pairAt l j a b ∧ ∀ k, pairAt l k a b → j ≤ k) := by
  induction l generalizing j with
  | nil => simp [find2, pairAt]
  | cons c r ih =>
    by_cases hc : c = a ∧ r.head? = some b
    · rw [find2, if_pos hc]
      constructor
      · intro h
        have hj : j = 0 := by simpa using h.symm
        subst hj
        exact ⟨(pairAt_cons_zero c r a b).mpr hc, fun k _ => Nat.zero_le k⟩
      · rintro ⟨hpj, hminj⟩
        have h0 := hminj 0 ((pairAt_cons_zero c r a b).mpr hc)
        have hj : j = 0 := by omega
        subst hj
        rfl
    · rw [find2, if_neg hc]
      cases hfr : find2 a b r with
      | none =>
        have hnone := (find2_none_iff a b r).mp hfr
        constructor
        · intro h; simp at h
        · rintro ⟨hpj, _⟩
          cases j with
          | zero =>
            rw [pairAt_cons_zero] at hpj
            exact absurd hpj hc
          | succ n =>
            rw [pairAt_cons_succ] at hpj
            exact absurd hpj (hnone n)
      | some m =>
        obtain ⟨hp, hmin⟩ := (ih m).mp hfr
        constructor
        · intro h
          have hj : j = m + 1 := by simpa using h.symm
          subst hj
          refine ⟨(pairAt_cons_succ c r m a b).mpr hp, ?_⟩
          intro k hk
          cases k with
          | zero =>
            rw [pairAt_cons_zero] at hk
            exact absurd hk hc
          | succ n =>
            rw [pairAt_cons_succ] at hk
            have := hmin n hk
            omega
        · rintro ⟨hpj, hminj⟩
          cases j with
          | zero =>
            rw [pairAt_cons_zero] at hpj
            exact absurd hpj hc
          | succ n =>
            rw [pairAt_cons_succ] at hpj
            have h1 := hmin n hpj
            have h2 := hminj (m + 1) ((pairAt_cons_succ c r m a b).mpr hp)
            have h3 : n = m := by omega
            subst h3
            simp

/-- Shifting a pattern occurrence through `List.drop`. -/
theorem pairAt_drop (l : List Char) (s k : Nat) (a b : Char) :
    pairAt (l.drop s) k a b ↔ pairAt l (s + k) a b := by
  unfold pairAt
  rw [List.get?_drop, List.get?_drop]
  rw [Nat.add_assoc]

/-- `find2From` fails exactly when no occurrence sits at or after `s`. -/
theorem find2From_none_iff (l : List Char) (s : Nat) (a b : Char) :
    find2From l s a b = none ↔ ∀ j, s ≤ j → ¬ pairAt l j a b := by
  unfold find2From
  rw [Option.map_eq_none']
  rw [find2_none_iff]
  constructor
  · intro h j hj hp
    have hk : pairAt (l.drop s) (j - s) a b := by
      rw [pairAt_drop]
      have : s + (j - s) = j := by omega
      rwa [this]
    exact h (j - s) hk
  · intro h k hk
    rw [pairAt_drop] at hk
    exact h (s + k) (Nat.le_add_right s k) hk

/-- `find2From` finds exactly the least occurrence at or after `s`. -/
theorem find2From_some_iff (l : List Char) (s : Nat) (a b : Char) (j : Nat) :
    find2From l s a b = some j ↔
      (s ≤ j ∧ pairAt l j a b ∧
        ∀ k, s ≤ k → pairAt l k a b → j ≤ k) := by
  unfold find2From
  constructor
  · intro h
    rw [Option.map_eq_some'] at h
    obtain ⟨m, hm, hj⟩ := h
    obtain ⟨hp, hmin⟩ := (find2_some_iff a b (l.drop s) m).mp hm
    rw [pairAt_drop] at hp
    subst hj
    refine ⟨Nat.le_add_right s m, hp, ?_⟩
    intro k hk hpk
    have hk' : pairAt (l.drop s) (k - s) a b := by
      rw [pairAt_drop]
      have : s + (k - s) = k := by omega
      rwa [this]
    have := hmin (k - s) hk'
    omega
  · rintro ⟨hsj, hpj, hminj⟩
    rw [Option.map_eq_some']
    refine ⟨j - s, ?_, by omega⟩
    rw [find2_some_iff]
    constructor
    · rw [pairAt_drop]
      have : s + (j - s) = j := by omega
      rwa [this]
    · intro k hk
      rw [pairAt_drop] at hk
      have := hminj (s + k) (Nat.le_add_right s k) hk
      omega

/-- C4 counterexample: with the line `"see [[N"` and the cursor at
character offset 2, the prefix before the cursor is `"se"`, which
contains no `'[['`, so the gate reports not-inside — the claim's concrete
example asserts that this position offers completions. -/
theorem completion_gate_offset2 :
    is_inside_wiki_link "see [[N".data ⟨0, 2⟩ = false := by decide

/-- C4 amended: the completion gate is open exactly as the claim's
general rule describes (nearest `'[['` scanning backward from the cursor
within the prefix before the cursor, then the first `']]'` from there on
the line, cursor at or before it, or no `']]'` at all); but in the
concrete line `"see [[N"` it is offsets at or after 6 — not offset 2 —
that offer completions: the `'[['` must lie entirely before the cursor. -/
theorem completion_gate_characterization :
    (∀ (text : List Char) (pos : Pos),
      is_inside_wiki_link text pos = true ↔ gateSpec text pos) ∧
    is_inside_wiki_link "see [[N".data ⟨0, 6⟩ = true ∧
    is_inside_wiki_link "see [[N".data ⟨0, 0⟩ = false ∧
    is_inside_wiki_link "see [[N".data ⟨0, 2⟩ = false := by
  refine ⟨?_, by decide, by decide, by decide⟩
  intro text pos
  unfold is_inside_wiki_link gateSpec
  cases hl : (rustLines text).get? pos.line with
  | none => simp
  | some line =>
    dsimp only
    cases ho : rfind2 '[' '[' (line.take (min pos.character line.length)) with
    | none =>
      have hnone := (rfind2_none_iff '[' '[' _).mp ho
      dsimp only
      constructor
      · intro h
        simp at h
      · rintro ⟨line', hline', i, hopen, -, -⟩
        injection hline' with hline'
        subst hline'
        exact absurd hopen (hnone i)
    | some i =>
      obtain ⟨hoi, homax⟩ := (rfind2_some_iff '[' '[' _ i).mp ho
      dsimp only
      cases hc : find2From line i ']' ']' with
      | none =>
        have hnc := (find2From_none_iff line i ']' ']').mp hc
        dsimp only
        constructor
        · intro _
          exact ⟨line, rfl, i, hoi, homax, Or.inl (fun j hj => hnc j hj)⟩
        · intro _
          rfl
      | some j =>
        obtain ⟨hij, hcj, hcmin⟩ := (find2From_some_iff line i ']' ']' j).mp hc
        dsimp only
        constructor
        · intro h
          have hcur : pos.character ≤ j := of_decide_eq_true h
          exact ⟨line, rfl, i, hoi, homax,
            Or.inr ⟨j, hij, hcj, hcmin, hcur⟩⟩
        · rintro ⟨line', hline', i', hopen', hmax', hdisj⟩
          injection hline' with hline'
          subst hline'
          have hii : i' = i := Nat.le_antisymm (homax i' hopen') (hmax' i hoi)
          subst hii
          rcases hdisj with hno | ⟨j', hj1, hj2, hj3, hj4⟩
          · exact absurd hcj (hno j hij)
          · have hjj : j = j' :=
              Nat.le_antisymm (hcmin j' hj1 hj2) (hj3 j hij hcj)
            subst hjj
            exact decide_eq_true hj4

/-- The regex match never fires on the empty list. -/
theorem matchHere_nil : matchHere [] = none := rfl

/-- The regex match never fires unless the head is `'['`. -/
theorem matchHere_not_open (c : Char) (r : List Char) (h : ¬ c = '[') :
    matchHere (c :: r) = none := by
  rw [matchHere.eq_def]
  split
  · next heq =>
    rw [List.cons.injEq] at heq
    exact absurd heq.1 h
  · rfl

/-- A successful regex match consumes at least one character (in fact at
least four). -/
theorem matchHere_ne_nil (cs : List Char) (t : Nat × List Char × Option (List Char))
    (h : matchHere cs = some t) : cs ≠ [] := by
  intro hnil
  subst hnil
  rw [matchHere_nil] at h
  exact Option.noConfusion h

/-- The fuel of `mdParseCore` is irrelevant once it covers the input
length. -/
theorem mdParseCore_congr (f1 : Nat) : ∀ (f2 : Nat) (cs : List Char),
    cs.length ≤ f1 → cs.length ≤ f2 → mdParseCore f1 cs = mdParseCore f2 cs := by
  induction f1 with
  | zero =>
    intro f2 cs h1 _
    have hnil : cs = [] := List.eq_nil_of_length_eq_zero (by omega)
    subst hnil
    cases f2 <;> rfl
  | succ n ih =>
    intro f2 cs h1 h2
    cases f2 with
    | zero =>
      have hnil : cs = [] := List.eq_nil_of_length_eq_zero (by omega)
      subst hnil
      rfl
    | succ m =>
      simp only [mdParseCore]
      cases hm : matchHere cs with
      | none =>
        cases cs with
        | nil => rfl
        | cons c r =>
          simp only [List.length_cons] at h1 h2
          dsimp only
          rw [ih m r (by omega) (by omega)]
      | some t =>
        have hne := matchHere_ne_nil cs t hm
        have hlen : cs.length ≥ 1 := by
          cases cs with
          | nil => exact absurd rfl hne
          | cons c r => simp
        have hd1 : (cs.drop (t.1 + 4)).length ≤ n := by
          rw [List.length_drop]
          omega
        have hd2 : (cs.drop (t.1 + 4)).length ≤ m := by
          rw [List.length_drop]
          omega
        dsimp only
        cases t.2.2 with
        | none =>
          dsimp only
          rw [ih m (cs.drop (t.1 + 4)) hd1 hd2]
        | some ti =>
          dsimp only
          rw [ih m (cs.drop (t.1 + 4)) hd1 hd2]

/-- Unfolding `mdParseText` at a title-less wiki-link match. -/
theorem mdParseText_link_none (cs : List Char) (j : Nat) (p : List Char)
    (h : matchHere cs = some (j, p, none)) :
    mdParseText cs = .startLink (.wikiLink false) (trimWs p) [] [] ::
      .endTag .link :: mdParseText (cs.drop (j + 4)) := by
  have hne := matchHere_ne_nil cs (j, p, none) h
  cases cs with
  | nil => exact absurd rfl hne
  | cons c r =>
    show mdParseCore (r.length + 1) (c :: r) = _
    simp only [mdParseCore, h]
    rw [mdParseCore_congr r.length ((c :: r).drop (j + 4)).length
      ((c :: r).drop (j + 4))
      (by rw [List.length_drop]; simp only [List.length_cons]; omega)
      (Nat.le_refl _)]
    rfl

/-- Unfolding `mdParseText` at a piped wiki-link match. -/
theorem mdParseText_link_some (cs : List Char) (j : Nat) (p ti : List Char)
    (h : matchHere cs = some (j, p, some ti)) :
    mdParseText cs = .startLink (.wikiLink true) (trimWs p) [] [] ::
      .text (trimWs ti) :: .endTag .link :: mdParseText (cs.drop (j + 4)) := by
  have hne := matchHere_ne_nil cs (j, p, some ti) h
  cases cs with
  | nil => exact absurd rfl hne
  | cons c r =>
    show mdParseCore (r.length + 1) (c :: r) = _
    simp only [mdParseCore, h]
    rw [mdParseCore_congr r.length ((c :: r).drop (j + 4)).length
      ((c :: r).drop (j + 4))
      (by rw [List.length_drop]; simp only [List.length_cons]; omega)
      (Nat.le_refl _)]
    rfl

/-- Unfolding `mdParseText` at a non-matching head character. -/
theorem mdParseText_plain_cons (c : Char) (r : List Char)
    (h : matchHere (c :: r) = none) :
    mdParseText (c :: r) = .text [c] :: mdParseText r := by
  show mdParseCore (r.length + 1) (c :: r) = _
  simp only [mdParseCore, h]
  rfl

/-- `mdParseText` of the empty document. -/
theorem mdParseText_nil : mdParseText [] = [] := rfl

/-- `findIdx?` over a `']'`-free block finds the `']'` just after it
(accumulator version). -/
theorem findIdx_close_acc (body : List Char) (rest : List Char) (i : Nat)
    (hb : ∀ c ∈ body, ¬ c = ']') :
    List.findIdx? (· = ']') (body ++ ']' :: rest) i = some (i + body.length) := by
  induction body generalizing i with
  | nil => simp [List.findIdx?_cons]
  | cons c bs ih =>
    rw [List.cons_append, List.findIdx?_cons]
    have hc : (decide (c = ']')) = false := by
      simp only [decide_eq_false_iff_not]
      exact hb c (List.mem_cons_self c bs)
    rw [hc]
    simp only [Bool.false_eq_true, if_false]
    rw [ih (i + 1) (fun x hx => hb x (List.mem_cons_of_mem c hx))]
    congr 1
    simp [List.length_cons]
    omega

/-- `findIdx?` over a `']'`-free block finds the `']'` just after it. -/
theorem findIdx_close_append (body : List Char) (rest : List Char)
    (hb : ∀ c ∈ body, ¬ c = ']') :
    List.findIdx? (· = ']') (body ++ ']' :: rest) = some body.length := by
  have h := findIdx_close_acc body rest 0 hb
  simpa using h

/-- `splitPipe` of a pipe-free list. -/
theorem splitPipe_none (C : List Char) (h : ∀ c ∈ C, ¬ c = '|') :
    splitPipe C = none := by
  induction C with
  | nil => rfl
  | cons c r ih =>
    rw [splitPipe]
    rw [if_neg (h c (List.mem_cons_self c r))]
    rw [ih (fun x hx => h x (List.mem_cons_of_mem c hx))]
    rfl

/-- `splitPipe` splits at the first pipe. -/
theorem splitPipe_at (A B : List Char) (h : ∀ c ∈ A, ¬ c = '|') :
    splitPipe (A ++ '|' :: B) = some (A, B) := by
  induction A with
  | nil => simp [splitPipe]
  | cons c r ih =>
    rw [List.cons_append, splitPipe]
    rw [if_neg (h c (List.mem_cons_self c r))]
    rw [ih (fun x hx => h x (List.mem_cons_of_mem c hx))]
    rfl

/-- The regex match on a title-less occurrence anchored at the head:
it fires with content exactly the raw path. -/
theorem matchHere_occ_none (p : List Char) (rest : List Char)
    (hne : p ≠ []) (hp : ∀ c ∈ p, ¬ c = ']' ∧ ¬ c = '|') :
    matchHere ('[' :: '[' :: (p ++ ']' :: ']' :: rest)) =
      some (p.length, p, none) := by
  rw [matchHere.eq_def]
  simp only
  rw [findIdx_close_append p (']' :: rest) (fun c hc => (hp c hc).1)]
  dsimp only
  have hget : (p ++ ']' :: ']' :: rest).get? (p.length + 1) = some ']' := by
    rw [List.get?_append_right (by omega)]
    simp
  rw [if_pos hget]
  have htake : (p ++ ']' :: ']' :: rest).take p.length = p := by
    have h := List.take_left p (']' :: ']' :: rest)
    exact h
  rw [htake]
  rw [splitPipe_none p (fun c hc => (hp c hc).2)]
  simp [hne]

/-- The regex match on a piped occurrence anchored at the head:
it fires with captures exactly the raw path and title. -/
theorem matchHere_occ_some (p ti : List Char) (rest : List Char)
    (hpne : p ≠ []) (htine : ti ≠ [])
    (hp : ∀ c ∈ p, ¬ c = ']' ∧ ¬ c = '|') (hti : ∀ c ∈ ti, ¬ c = ']') :
    matchHere ('[' :: '[' :: (p ++ '|' :: ti ++ ']' :: ']' :: rest)) =
      some (p.length + 1 + ti.length, p, some ti) := by
  rw [matchHere.eq_def]
  simp only
  have hbody : ∀ c ∈ p ++ '|' :: ti, ¬ c = ']' := by
    intro c hc
    rcases List.mem_append.mp hc with h | h
    · exact (hp c h).1
    · rcases List.mem_cons.mp h with h | h
      · rw [h]; intro hcon; exact absurd hcon (by decide)
      · exact hti c h
  have hassoc : p ++ '|' :: ti ++ ']' :: ']' :: rest =
      (p ++ '|' :: ti) ++ ']' :: ']' :: rest := by
    simp [List.append_assoc]
  rw [hassoc]
  rw [findIdx_close_append (p ++ '|' :: ti) (']' :: rest) hbody]
  dsimp only
  have hlen : (p ++ '|' :: ti).length = p.length + 1 + ti.length := by
    simp [List.length_append]
    omega
  have hget : ((p ++ '|' :: ti) ++ ']' :: ']' :: rest).get?
      ((p ++ '|' :: ti).length + 1) = some ']' := by
    rw [List.get?_append_right (by omega)]
    simp
  rw [if_pos hget]
  have htake : ((p ++ '|' :: ti) ++ ']' :: ']' :: rest).take
      (p ++ '|' :: ti).length = p ++ '|' :: ti :=
    List.take_left _ _
  rw [htake]
  rw [splitPipe_at p ti (fun c hc => (hp c hc).2)]
  simp [hpne, htine, hlen]

/-- Dropping a block plus `k` more characters. -/
theorem drop_block (t l : List Char) (k : Nat) :
    (t ++ l).drop (t.length + k) = l.drop k := List.drop_append k

/-- Pass-through of a text event in the `normal` state. -/
theorem transformFrom_normal_text (s : List Char) (evs : List MdEvent) :
    transformFrom .normal (.text s :: evs) =
      .text s :: transformFrom .normal evs := rfl

/-- The transformer passes a block of plain text events through. -/
theorem transformFrom_normal_texts (s : List Char) (evs : List MdEvent) :
    transformFrom .normal (s.map (fun c => MdEvent.text [c]) ++ evs) =
      s.map (fun c => MdEvent.text [c]) ++ transformFrom .normal evs := by
  induction s with
  | nil => rfl
  | cons c r ih =>
    simp only [List.map_cons, List.cons_append]
    rw [transformFrom_normal_text]
    rw [ih]

/-- The transformer collapses a title-less wiki-link event pair. -/
theorem transformFrom_link_none (t : List Char) (evs : List MdEvent) :
    transformFrom .normal
        (.startLink (.wikiLink false) t [] [] :: .endTag .link :: evs) =
      .text (wikiText t []) :: transformFrom .normal evs := rfl

/-- The transformer collapses a piped wiki-link event triple. -/
theorem transformFrom_link_some (t ti : List Char) (evs : List MdEvent) :
    transformFrom .normal (.startLink (.wikiLink true) t [] [] ::
        .text ti :: .endTag .link :: evs) =
      .text (wikiText t ti) :: transformFrom .normal evs := rfl

/-- Rendering distributes over appending. -/
theorem renderEvents_append (a b : List MdEvent) :
    renderEvents (a ++ b) = renderEvents a ++ renderEvents b := by
  unfold renderEvents
  rw [List.map_append, List.flatten_append]

/-- Rendering a block of one-character text events is the block itself. -/
theorem renderEvents_texts (s : List Char) :
    renderEvents (s.map (fun c => MdEvent.text [c])) = s := by
  induction s with
  | nil => rfl
  | cons c r ih =>
    simp only [List.map_cons]
    show [c] ++ renderEvents (r.map (fun c => MdEvent.text [c])) = c :: r
    rw [ih]
    rfl

/-- Rendering a cons cell. -/
theorem renderEvents_cons (e : MdEvent) (l : List MdEvent) :
    renderEvents (e :: l) = renderEvent e ++ renderEvents l := rfl

/-- Parsing a link-free block of characters yields one-character text
events followed by the parse of the remainder. -/
theorem mdParseText_plain_block (s D : List Char) (hnb : ∀ c ∈ s, ¬ c = '[') :
    mdParseText (s ++ D) = s.map (fun c => MdEvent.text [c]) ++ mdParseText D := by
  induction s with
  | nil => simp
  | cons c r ihs =>
    rw [List.cons_append]
    rw [mdParseText_plain_cons c (r ++ D)
      (matchHere_not_open c _ (hnb c (List.mem_cons_self c r)))]
    rw [ihs (fun x hx => hnb x (List.mem_cons_of_mem c hx))]
    rfl

/-- The round-trip core: parsing, transforming and rendering the text of
a well-formed wiki-link-only document reproduces it verbatim. -/
theorem parse_transform_render (d : List Seg) (hwf : docWF d = true) :
    renderEvents (transformAll (mdParseText (docText d))) = docText d := by
  induction d with
  | nil => rfl
  | cons seg rest ih =>
    rw [docWF, List.all_cons, Bool.and_eq_true] at hwf
    obtain ⟨hseg, hrest⟩ := hwf
    have ihr : renderEvents (transformFrom .normal (mdParseText (docText rest))) =
        docText rest := ih hrest
    have hdoc : docText (seg :: rest) = segText seg ++ docText rest := by
      unfold docText
      rw [List.map_cons, List.flatten_cons]
    rw [hdoc]
    cases seg with
    | plain s =>
      simp only [segWF, Bool.and_eq_true] at hseg
      obtain ⟨hne, hchars⟩ := hseg
      have hnb : ∀ c ∈ s, ¬ c = '[' := by
        intro c hc
        have hx := List.all_eq_true.mp hchars c hc
        simp only [Bool.and_eq_true, bne_iff_ne, ne_eq] at hx
        tauto
      show renderEvents (transformFrom .normal (mdParseText (s ++ docText rest))) = _
      rw [mdParseText_plain_block s (docText rest) hnb]
      rw [transformFrom_normal_texts, renderEvents_append, renderEvents_texts]
      rw [ihr]
      rfl
    | link t ti =>
      cases ti with
      | none =>
        simp only [segWF, Bool.and_eq_true] at hseg
        obtain ⟨⟨⟨htne, htrim⟩, htchars⟩, -⟩ := hseg
        have htne' : t ≠ [] := by simpa using htne
        have htrim' : trimWs t = t := by simpa using htrim
        have htc : ∀ c ∈ t, ¬ c = ']' ∧ ¬ c = '|' := by
          intro c hc
          have hx := List.all_eq_true.mp htchars c hc
          simp only [Bool.and_eq_true, bne_iff_ne, ne_eq] at hx
          tauto
        have hshape : segText (Seg.link t none) ++ docText rest =
            '[' :: '[' :: (t ++ ']' :: ']' :: docText rest) := by
          show (('[' :: '[' :: t) ++ "]]".data) ++ docText rest = _
          simp
        rw [hshape]
        rw [mdParseText_link_none _ t.length t
          (matchHere_occ_none t (docText rest) htne' htc)]
        have hdrop : ('[' :: '[' :: (t ++ ']' :: ']' :: docText rest)).drop
            (t.length + 4) = docText rest := by
          show (t ++ ']' :: ']' :: docText rest).drop (t.length + 2) = _
          rw [drop_block t (']' :: ']' :: docText rest) 2]
          rfl
        rw [hdrop, htrim']
        show renderEvents (transformFrom .normal _) = _
        rw [transformFrom_link_none, renderEvents_cons]
        rw [ihr]
        show wikiText t [] ++ docText rest = _
        simp [wikiText, segText]
      | some s =>
        simp only [segWF, Bool.and_eq_true] at hseg
        obtain ⟨⟨⟨htne, htrim⟩, htchars⟩, ⟨⟨hsne, hstrim⟩, hschars⟩⟩ := hseg
        have htne' : t ≠ [] := by simpa using htne
        have htrim' : trimWs t = t := by simpa using htrim
        have htc : ∀ c ∈ t, ¬ c = ']' ∧ ¬ c = '|' := by
          intro c hc
          have hx := List.all_eq_true.mp htchars c hc
          simp only [Bool.and_eq_true, bne_iff_ne, ne_eq] at hx
          tauto
        have hsne' : s ≠ [] := by simpa using hsne
        have hstrim' : trimWs s = s := by simpa using hstrim
        have hsc : ∀ c ∈ s, ¬ c = ']' := by
          intro c hc
          have hx := List.all_eq_true.mp hschars c hc
          simp only [Bool.and_eq_true, bne_iff_ne, ne_eq] at hx
          tauto
        have hshape : segText (Seg.link t (some s)) ++ docText rest =
            '[' :: '[' :: (t ++ '|' :: s ++ ']' :: ']' :: docText rest) := by
          show (('[' :: '[' :: t) ++ '|' :: s ++ "]]".data) ++ docText rest = _
          simp
        rw [hshape]
        rw [mdParseText_link_some _ (t.length + 1 + s.length) t s
          (matchHere_occ_some t s (docText rest) htne' hsne' htc hsc)]
        have hdrop : ('[' :: '[' ::
            (t ++ '|' :: s ++ ']' :: ']' :: docText rest)).drop
            (t.length + 1 + s.length + 4) = docText rest := by
          show (t ++ '|' :: s ++ ']' :: ']' :: docText rest).drop
            (t.length + 1 + s.length + 2) = _
          have hassoc : t ++ '|' :: s ++ ']' :: ']' :: docText rest =
              (t ++ '|' :: s) ++ ']' :: ']' :: docText rest := by
            simp
          rw [hassoc]
          have hlen : t.length + 1 + s.length + 2 = (t ++ '|' :: s).length + 2 := by
            simp [List.length_append]
            omega
          rw [hlen, drop_block (t ++ '|' :: s) (']' :: ']' :: docText rest) 2]
          rfl
        rw [hdrop, htrim', hstrim']
        show renderEvents (transformFrom .normal _) = _
        rw [transformFrom_link_some, renderEvents_cons]
        rw [ihr]
        show wikiText t s ++ docText rest = _
        simp [wikiText, segText, hsne']


/-- C1: for any well-formed wiki-link-only document, rendering the
transformed event stream of the parsed text reproduces the document text
verbatim — every `[[target]]` / `[[target|title]]` substring (with
trimmed components) comes back unchanged. -/
theorem roundtrip_wikilinks (d : List Seg) (h : docWF d = true) :
    renderEvents (transformAll (mdParseText (docText d))) = docText d :=
  parse_transform_render d h

/-- `splitNl` never returns the empty list. -/
theorem splitNl_ne_nil (cs : List Char) : splitNl cs ≠ [] := by
  cases cs with
  | nil => simp [splitNl]
  | cons c r =>
    rw [splitNl]
    by_cases hc : c = '\n'
    · simp [hc]
    · rw [if_neg hc]
      cases splitNl r <;> simp

/-- `splitNl` splits off a newline-free first line. -/
theorem splitNl_append (l : List Char) (rest : List Char)
    (hl : ∀ c ∈ l, ¬ c = '\n') :
    splitNl (l ++ '\n' :: rest) = l :: splitNl rest := by
  induction l with
  | nil => simp [splitNl]
  | cons c r ih =>
    rw [List.cons_append, splitNl]
    rw [if_neg (hl c (List.mem_cons_self c r))]
    rw [ih (fun x hx => hl x (List.mem_cons_of_mem c hx))]

/-- Joining the pieces of `splitNl` restores the input. -/
theorem joinNl_splitNl (cs : List Char) : joinNl (splitNl cs) = cs := by
  induction cs with
  | nil => rfl
  | cons c r ih =>
    rw [splitNl]
    by_cases hc : c = '\n'
    · subst hc
      rw [if_pos rfl]
      cases hq : splitNl r with
      | nil => exact absurd hq (splitNl_ne_nil r)
      | cons q qs =>
        show '\n' :: joinNl (q :: qs) = '\n' :: r
        rw [← hq, ih]
    · rw [if_neg hc]
      cases hq : splitNl r with
      | nil => exact absurd hq (splitNl_ne_nil r)
      | cons q qs =>
        have hstep : joinNl ((c :: q) :: qs) = c :: joinNl (q :: qs) := by
          cases qs <;> rfl
        rw [hstep, ← hq, ih]

/-- If the input is non-empty and does not end in a newline, the last
`splitNl` piece is non-empty. -/
theorem splitNl_getLast_ne_nil (cs : List Char) (hne : cs ≠ [])
    (hlast : cs.getLast? ≠ some '\n') :
    (splitNl cs).getLast? ≠ some [] := by
  induction cs with
  | nil => exact absurd rfl hne
  | cons c r ih =>
    rw [splitNl]
    cases r with
    | nil =>
      have hc : ¬ c = '\n' := by
        intro hcon
        exact hlast (by simp [hcon])
      rw [if_neg hc]
      simp [splitNl]
    | cons c2 r2 =>
      have hlast2 : (c2 :: r2).getLast? ≠ some '\n' := by
        rwa [List.getLast?_cons_cons] at hlast
      have ih2 := ih (by simp) hlast2
      by_cases hc : c = '\n'
      · rw [if_pos hc]
        cases hq : splitNl (c2 :: r2) with
        | nil => exact absurd hq (splitNl_ne_nil _)
        | cons q qs =>
          rw [List.getLast?_cons_cons]
          rwa [hq] at ih2
      · rw [if_neg hc]
        cases hq : splitNl (c2 :: r2) with
        | nil => exact absurd hq (splitNl_ne_nil _)
        | cons q qs =>
          rw [hq] at ih2
          cases qs with
          | nil => simp
          | cons q2 qs2 =>
            rw [List.getLast?_cons_cons]
            rwa [List.getLast?_cons_cons] at ih2

/-- Every character of a `splitNl` piece comes from the input. -/
theorem splitNl_mem (cs : List Char) (piece : List Char) (c : Char)
    (hp : piece ∈ splitNl cs) (hc : c ∈ piece) : c ∈ cs := by
  induction cs generalizing piece with
  | nil =>
    simp [splitNl] at hp
    subst hp
    exact absurd hc (by simp)
  | cons x r ih =>
    rw [splitNl] at hp
    by_cases hx : x = '\n'
    · rw [if_pos hx] at hp
      rcases List.mem_cons.mp hp with h | h
      · subst h
        exact absurd hc (by simp)
      · exact List.mem_cons_of_mem x (ih piece h hc)
    · rw [if_neg hx] at hp
      cases hq : splitNl r with
      | nil => exact absurd hq (splitNl_ne_nil r)
      | cons q qs =>
        rw [hq] at hp
        rcases List.mem_cons.mp hp with h | h
        · subst h
          rcases List.mem_cons.mp hc with h2 | h2
          · exact h2 ▸ List.mem_cons_self x r
          · exact List.mem_cons_of_mem x (ih q (by rw [hq]; exact List.mem_cons_self q qs) h2)
        · exact List.mem_cons_of_mem x (ih piece (by rw [hq]; exact List.mem_cons_of_mem q h) hc)

/-- `stripCR` is the identity on a carriage-return-free list. -/
theorem stripCR_id (l : List Char) (h : ∀ c ∈ l, ¬ c = '\r') :
    stripCR l = l := by
  unfold stripCR
  cases hr : l.reverse with
  | nil => rfl
  | cons c r =>
    have hcl : c ∈ l := by
      rw [← List.mem_reverse, hr]
      exact List.mem_cons_self c r
    by_cases hc : c = '\r'
    · exact absurd hc (h c hcl)
    · cases hcc : c
      simp_all

/-- On carriage-return-free input that does not end in a newline,
re-joining `rustLines` restores the input (the shape `process_custom_commands`
relies on). -/
theorem joinNl_rustLines (cs : List Char)
    (hcr : ∀ c ∈ cs, ¬ c = '\r') (hnl : cs.getLast? ≠ some '\n') :
    joinNl (rustLines cs) = cs := by
  cases hcs : cs with
  | nil => rfl
  | cons c r =>
    rw [← hcs]
    show joinNl ((if (splitNl cs).getLast? = some []
      then (splitNl cs).dropLast else splitNl cs).map stripCR) = cs
    have hlast : (splitNl cs).getLast? ≠ some [] :=
      splitNl_getLast_ne_nil cs (by rw [hcs]; simp) hnl
    rw [if_neg hlast]
    have hmap : (splitNl cs).map stripCR = (splitNl cs).map id := by
      apply List.map_congr_left
      intro piece hp
      exact stripCR_id piece (fun c hc => hcr c (splitNl_mem cs piece c hp hc))
    rw [hmap, List.map_id, joinNl_splitNl]

/-- `rustLines` splits off a newline-free first line terminated by a
newline. -/
theorem rustLines_append_newline (l rest : List Char)
    (hl : ∀ c ∈ l, ¬ c = '\n') :
    rustLines (l ++ '\n' :: rest) = stripCR l :: rustLines rest := by
  show (if (splitNl (l ++ '\n' :: rest)).getLast? = some []
      then (splitNl (l ++ '\n' :: rest)).dropLast
      else splitNl (l ++ '\n' :: rest)).map stripCR =
    stripCR l :: (if (splitNl rest).getLast? = some []
      then (splitNl rest).dropLast else splitNl rest).map stripCR
  rw [splitNl_append l rest hl]
  cases hq : splitNl rest with
  | nil => exact absurd hq (splitNl_ne_nil rest)
  | cons q qs =>
    rw [List.getLast?_cons_cons]
    by_cases hcond : (q :: qs).getLast? = some []
    · rw [if_pos hcond, if_pos hcond]
      simp [List.dropLast]
    · rw [if_neg hcond, if_neg hcond]
      rfl

/-- `stripEsc` is the identity on backslash-free text. -/
theorem stripEsc_id (l : List Char) (h : ∀ c ∈ l, ¬ c = '\\') :
    stripEsc l = l := by
  induction l using stripEsc.induct with
  | case1 r => exact absurd rfl (h '\\' (by simp))
  | case2 c r hne ih =>
    rw [stripEsc.eq_def]
    split
    · next heq =>
      rw [List.cons.injEq] at heq
      exact absurd heq.1 (h c (List.mem_cons_self c r))
    · next heq =>
      rw [List.cons.injEq] at heq
      obtain ⟨h1, h2⟩ := heq
      subst h1
      subst h2
      rw [ih (fun x hx => h x (List.mem_cons_of_mem c hx))]
    · next heq => exact absurd heq (by simp)
  | case3 => rfl

/-- No character of the text of a well-formed document is a backslash. -/
theorem docText_no_backslash (d : List Seg) (hwf : docWF d = true) :
    ∀ c ∈ docText d, ¬ c = '\\' := by
  induction d with
  | nil =>
    intro c hc
    simp [docText] at hc
  | cons seg rest ih =>
    intro c hc hcon
    subst hcon
    rw [docWF, List.all_cons, Bool.and_eq_true] at hwf
    obtain ⟨hseg, hrest⟩ := hwf
    have hdoc : docText (seg :: rest) = segText seg ++ docText rest := by
      unfold docText
      rw [List.map_cons, List.flatten_cons]
    rw [hdoc, List.mem_append] at hc
    rcases hc with hc | hc
    · cases seg with
      | plain s =>
        simp only [segWF, Bool.and_eq_true] at hseg
        have hx := List.all_eq_true.mp hseg.2 _ hc
        simp at hx
      | link t ti =>
        cases ti with
        | none =>
          simp only [segWF, Bool.and_eq_true] at hseg
          simp +decide [segText, List.mem_append, List.mem_cons] at hc
          have hx := List.all_eq_true.mp hseg.1.2 _ hc
          simp at hx
        | some s =>
          simp only [segWF, Bool.and_eq_true] at hseg
          simp +decide [segText, List.mem_append, List.mem_cons] at hc
          rcases hc with hc | hc
          · have hx := List.all_eq_true.mp hseg.1.2 _ hc
            simp at hx
          · have hx := List.all_eq_true.mp hseg.2.2 _ hc
            simp at hx
    · exact ih hrest _ hc rfl

/-- `filterMap` keeps a list whose every element maps to itself. -/
theorem filterMap_keep (f : List Char → Option (List Char))
    (L : List (List Char)) (h : ∀ l ∈ L, f l = some l) :
    L.filterMap f = L := by
  induction L with
  | nil => rfl
  | cons a r ih =>
    rw [List.filterMap_cons, h a (List.mem_cons_self a r),
      ih (fun x hx => h x (List.mem_cons_of_mem a hx))]

/-- C8: formatting an input whose first line is the directive
`%%atw myworkspace` followed by a well-formed body produces the body with
the directive line removed, for every workspace CRUD collaborator —
whether its append call succeeds or fails. -/
theorem directive_stripping (crud : CrudEnv) (vaultDir filePath : List Char)
    (d : List Seg) (hwf : docWF d = true)
    (hnd : ((rustLines (docText d)).all
      (fun l => (parseDirective (trimWs l)).isNone)) = true)
    (hcr : ((docText d).all (fun c => c != '\r')) = true)
    (hnl : (docText d).getLast? ≠ some '\n') :
    format_markdown2 (.ok vaultDir) (.ok filePath) crud
      ("%%atw myworkspace\n".data ++ docText d) = .ok (docText d) := by
  have hlit : "%%atw myworkspace\n".data =
      "%%atw myworkspace".data ++ ['\n'] := by decide
  rw [hlit, List.append_assoc, List.singleton_append]
  unfold format_markdown2 process_custom_commands
  dsimp only
  rw [rustLines_append_newline _ _ (by decide)]
  have hstrip : stripCR "%%atw myworkspace".data =
      "%%atw myworkspace".data := by decide
  rw [hstrip]
  rw [List.filterMap_cons]
  have hdir : parseDirective (trimWs "%%atw myworkspace".data) =
      some (Cmd.atw, "myworkspace".data) := by decide
  rw [hdir]
  dsimp only
  have hkeep : (rustLines (docText d)).filterMap
      (fun l => match parseDirective (trimWs l) with
        | some dd =>
          let u := runDirective crud vaultDir filePath dd
          none
        | none => some l) = rustLines (docText d) := by
    apply filterMap_keep
    intro l hl
    have hn := List.all_eq_true.mp hnd l hl
    rw [Option.isNone_iff_eq_none] at hn
    rw [hn]
  rw [hkeep]
  have hjoin : joinNl (rustLines (docText d)) = docText d := by
    apply joinNl_rustLines
    · intro c hc
      have hx := List.all_eq_true.mp hcr c hc
      simpa using hx
    · exact hnl
  rw [hjoin]
  unfold format_markdown
  rw [parse_transform_render d hwf]
  rw [stripEsc_id _ (docText_no_backslash d hwf)]

/-- Witness for C8 with a CRUD collaborator whose every call fails. -/
theorem directive_stripping_witness :
    docWF [Seg.plain "hello".data] = true ∧
    format_markdown2 (.ok "v".data) (.ok "f".data)
      ⟨fun _ _ _ => .error "boom".data, fun _ _ _ => .error "boom".data,
       fun _ _ _ => .error "boom".data⟩
      ("%%atw myworkspace\n".data ++ docText [Seg.plain "hello".data]) =
      .ok (docText [Seg.plain "hello".data]) :=
  ⟨by decide, directive_stripping _ _ _ _ (by decide) (by decide) (by decide)
    (by decide)⟩

/-- Witness for C1 on a concrete document mixing plain text, a title-less
link and a piped link. -/
theorem roundtrip_wikilinks_witness :
    docWF [Seg.plain "see ".data,
      Seg.link "Design-Doc".data (some "Design Document".data),
      Seg.plain " and ".data, Seg.link "foo".data none] = true ∧
    renderEvents (transformAll (mdParseText (docText [Seg.plain "see ".data,
      Seg.link "Design-Doc".data (some "Design Document".data),
      Seg.plain " and ".data, Seg.link "foo".data none]))) =
      docText [Seg.plain "see ".data,
        Seg.link "Design-Doc".data (some "Design Document".data),
        Seg.plain " and ".data, Seg.link "foo".data none] :=
  ⟨by decide, roundtrip_wikilinks _ (by decide)⟩

/-- The fuel of `scanCore` is irrelevant once it covers the input length. -/
theorem scanCore_congr (f1 : Nat) : ∀ (f2 : Nat) (cs : List Char),
    cs.length ≤ f1 → cs.length ≤ f2 → scanCore f1 cs = scanCore f2 cs := by
  induction f1 with
  | zero =>
    intro f2 cs h1 _
    have hnil : cs = [] := List.eq_nil_of_length_eq_zero (by omega)
    subst hnil
    cases f2 <;> rfl
  | succ n ih =>
    intro f2 cs h1 h2
    cases f2 with
    | zero =>
      have hnil : cs = [] := List.eq_nil_of_length_eq_zero (by omega)
      subst hnil
      rfl
    | succ m =>
      simp only [scanCore]
      cases hm : matchHere cs with
      | none =>
        cases cs with
        | nil => rfl
        | cons c r =>
          simp only [List.length_cons] at h1 h2
          dsimp only
          rw [ih m r (by omega) (by omega)]
      | some t =>
        have hne := matchHere_ne_nil cs t hm
        have hlen : cs.length ≥ 1 := by
          cases cs with
          | nil => exact absurd rfl hne
          | cons c r => simp
        dsimp only
        rw [ih m (cs.drop (t.1 + 4)) (by rw [List.length_drop]; omega)
          (by rw [List.length_drop]; omega)]

/-- Unfolding `scanAux` at a match. -/
theorem scanAux_match (cs : List Char) (t : Nat × List Char × Option (List Char))
    (h : matchHere cs = some t) :
    scanAux cs = ⟨0, t.1 + 4, t.2.1, t.2.2⟩ ::
      (scanAux (cs.drop (t.1 + 4))).map (shiftM (t.1 + 4)) := by
  have hne := matchHere_ne_nil cs t h
  cases cs with
  | nil => exact absurd rfl hne
  | cons c r =>
    show scanCore (r.length + 1) (c :: r) = _
    simp only [scanCore, h]
    rw [scanCore_congr r.length ((c :: r).drop (t.1 + 4)).length
      ((c :: r).drop (t.1 + 4))
      (by rw [List.length_drop]; simp only [List.length_cons]; omega)
      (Nat.le_refl _)]
    rfl

/-- Unfolding `scanAux` at a non-matching head. -/
theorem scanAux_step (c : Char) (r : List Char)
    (h : matchHere (c :: r) = none) :
    scanAux (c :: r) = (scanAux r).map (shiftM 1) := by
  show scanCore (r.length + 1) (c :: r) = _
  simp only [scanCore, h]
  rfl

/-- Shifting a match by zero is the identity. -/
theorem shiftM_zero (m : WMatch) : shiftM 0 m = m := by
  cases m
  simp [shiftM]

/-- Shifted shifts compose additively. -/
theorem shiftM_comp (a b : Nat) (m : WMatch) :
    shiftM a (shiftM b m) = shiftM (b + a) m := by
  cases m
  simp [shiftM]
  omega

/-- Scanning past a `'['`-free gap shifts the matches of the remainder. -/
theorem scanAux_gap (g rest : List Char) (hg : ∀ c ∈ g, ¬ c = '[') :
    scanAux (g ++ rest) = (scanAux rest).map (shiftM g.length) := by
  induction g with
  | nil =>
    simp only [List.nil_append, List.length_nil]
    rw [List.map_congr_left (fun m _ => shiftM_zero m)]
    simp
  | cons c gr ih =>
    rw [List.cons_append]
    rw [scanAux_step c (gr ++ rest)
      (matchHere_not_open c _ (hg c (List.mem_cons_self c gr)))]
    rw [ih (fun x hx => hg x (List.mem_cons_of_mem c hx))]
    rw [List.map_map]
    apply List.map_congr_left
    intro m _
    show shiftM 1 (shiftM gr.length m) = shiftM (c :: gr).length m
    rw [shiftM_comp]
    rfl

/-- Scanning at a well-formed occurrence yields exactly its match and the
shifted matches of the remainder. -/
theorem scanAux_occ (p : List Char) (ti : Option (List Char))
    (rest : List Char) (hwf : lsegWF (.occ p ti) = true) :
    scanAux (lsegText (.occ p ti) ++ rest) =
      ⟨0, (lsegText (.occ p ti)).length, p, ti⟩ ::
        (scanAux rest).map (shiftM (lsegText (.occ p ti)).length) := by
  simp only [lsegWF, Bool.and_eq_true] at hwf
  obtain ⟨⟨⟨hpne, hptrim⟩, hpchars⟩, hti⟩ := hwf
  have hpne' : p ≠ [] := by simpa using hpne
  have hpc : ∀ c ∈ p, ¬ c = ']' ∧ ¬ c = '|' := by
    intro c hc
    have hx := List.all_eq_true.mp hpchars c hc
    simp only [Bool.and_eq_true, bne_iff_ne, ne_eq] at hx
    tauto
  cases ti with
  | none =>
    have hshape : lsegText (LSeg.occ p none) ++ rest =
        '[' :: '[' :: (p ++ ']' :: ']' :: rest) := by
      show (('[' :: '[' :: p) ++ "]]".data) ++ rest = _
      simp
    have hlen : (lsegText (LSeg.occ p none)).length = p.length + 4 := by
      show (('[' :: '[' :: p) ++ "]]".data).length = _
      simp
    rw [hshape]
    rw [scanAux_match _ _ (matchHere_occ_none p rest hpne' hpc)]
    have hdrop : ('[' :: '[' :: (p ++ ']' :: ']' :: rest)).drop
        (p.length + 4) = rest := by
      show (p ++ ']' :: ']' :: rest).drop (p.length + 2) = _
      rw [drop_block p (']' :: ']' :: rest) 2]
      rfl
    rw [hdrop, hlen]
  | some s =>
    simp only [Bool.and_eq_true] at hti
    obtain ⟨hsne, hschars⟩ := hti
    have hsne' : s ≠ [] := by simpa using hsne
    have hsc : ∀ c ∈ s, ¬ c = ']' := by
      intro c hc
      have hx := List.all_eq_true.mp hschars c hc
      simpa using hx
    have hshape : lsegText (LSeg.occ p (some s)) ++ rest =
        '[' :: '[' :: (p ++ '|' :: s ++ ']' :: ']' :: rest) := by
      show (('[' :: '[' :: p) ++ '|' :: s ++ "]]".data) ++ rest = _
      simp
    have hlen : (lsegText (LSeg.occ p (some s))).length =
        p.length + 1 + s.length + 4 := by
      show (('[' :: '[' :: p) ++ '|' :: s ++ "]]".data).length = _
      simp
      omega
    rw [hshape]
    rw [scanAux_match _ _ (matchHere_occ_some p s rest hpne' hsne' hpc hsc)]
    have hdrop : ('[' :: '[' :: (p ++ '|' :: s ++ ']' :: ']' :: rest)).drop
        (p.length + 1 + s.length + 4) = rest := by
      show (p ++ '|' :: s ++ ']' :: ']' :: rest).drop
        (p.length + 1 + s.length + 2) = _
      have hassoc : p ++ '|' :: s ++ ']' :: ']' :: rest =
          (p ++ '|' :: s) ++ ']' :: ']' :: rest := by
        simp
      rw [hassoc]
      have hl2 : p.length + 1 + s.length + 2 = (p ++ '|' :: s).length + 2 := by
        simp [List.length_append]
        omega
      rw [hl2, drop_block (p ++ '|' :: s) (']' :: ']' :: rest) 2]
      rfl
    rw [hdrop, hlen]

/-- The scan of a well-formed decomposed line is exactly its occurrence
list: the regex finds every occurrence, with its exact span and raw
captures, and nothing else. -/
theorem scanAux_line (segs : List LSeg) (hwf : lineWF segs = true) :
    scanAux (lineOf segs) = occList segs := by
  induction segs with
  | nil => rfl
  | cons seg rest ih =>
    rw [lineWF, List.all_cons, Bool.and_eq_true] at hwf
    obtain ⟨hseg, hrest⟩ := hwf
    have hline : lineOf (seg :: rest) = lsegText seg ++ lineOf rest := by
      unfold lineOf
      rw [List.map_cons, List.flatten_cons]
    rw [hline]
    cases seg with
    | gap g =>
      have hg : ∀ c ∈ g, ¬ c = '[' := by
        intro c hc
        have hx := List.all_eq_true.mp hseg c hc
        simpa using hx
      rw [show lsegText (LSeg.gap g) = g from rfl]
      rw [scanAux_gap g (lineOf rest) hg, ih hrest]
      rfl
    | occ p ti =>
      rw [scanAux_occ p ti (lineOf rest) hseg, ih hrest]
      rfl

/-- Chains relax to smaller bases. -/
theorem chainedFrom_mono (b b2 : Nat) (l : List WMatch)
    (h : chainedFrom b l) (hb : b2 ≤ b) : chainedFrom b2 l := by
  cases l with
  | nil => trivial
  | cons m ms =>
    obtain ⟨h1, h2, h3⟩ := h
    exact ⟨by omega, h2, h3⟩

/-- Shifting a chain shifts its base. -/
theorem chainedFrom_shift (b n : Nat) (l : List WMatch)
    (h : chainedFrom b l) : chainedFrom (b + n) (l.map (shiftM n)) := by
  induction l generalizing b with
  | nil => trivial
  | cons m ms ih =>
    obtain ⟨h1, h2, h3⟩ := h
    refine ⟨by simp [shiftM]; omega, by simp [shiftM]; omega, ?_⟩
    show chainedFrom (m.stop + n) (ms.map (shiftM n))
    exact ih m.stop h3

/-- An occurrence's text is non-empty. -/
theorem lsegText_occ_pos (p : List Char) (ti : Option (List Char)) :
    0 < (lsegText (.occ p ti)).length := by
  cases ti <;> simp [lsegText]

/-- The occurrence list of a well-formed line is chained from zero. -/
theorem chainedFrom_occList (segs : List LSeg) :
    chainedFrom 0 (occList segs) := by
  induction segs with
  | nil => trivial
  | cons seg rest ih =>
    cases seg with
    | gap g =>
      show chainedFrom 0 ((occList rest).map (shiftM g.length))
      exact chainedFrom_mono _ 0 _ (chainedFrom_shift 0 g.length _ ih) (by omega)
    | occ p ti =>
      refine ⟨Nat.le_refl 0, ?_, ?_⟩
      · simpa using lsegText_occ_pos p ti
      · have h := chainedFrom_shift 0 (lsegText (.occ p ti)).length _ ih
        simpa using h

/-- Every element of a chain starts at or after the base. -/
theorem chainedFrom_le (b : Nat) (l : List WMatch) (m : WMatch)
    (h : chainedFrom b l) (hm : m ∈ l) : b ≤ m.start := by
  induction l generalizing b with
  | nil => cases hm
  | cons m0 ms ih =>
    obtain ⟨h1, h2, h3⟩ := h
    rcases List.mem_cons.mp hm with he | ht
    · subst he; exact h1
    · have := ih m0.stop h3 ht
      omega

/-- The handlers' containment loop returns the first chained match whose
inclusive span contains the cursor. -/
theorem linkLoop_finds (c b : Nat) (l : List WMatch) (m : WMatch)
    (hch : chainedFrom b l) (hm : m ∈ l) (h1 : m.start ≤ c) (h2 : c ≤ m.stop)
    (hfirst : ∀ m2 ∈ l, m2.stop = c → m.start ≤ m2.start) :
    linkLoop c l = some m := by
  induction l generalizing b with
  | nil => cases hm
  | cons m0 ms ih =>
    obtain ⟨hb0, hlt, hch2⟩ := hch
    rcases List.mem_cons.mp hm with he | ht
    · subst he
      rw [linkLoop, if_pos ⟨h1, h2⟩]
    · have hms : m0.stop ≤ m.start := chainedFrom_le m0.stop ms m hch2 ht
      by_cases hcont : m0.start ≤ c ∧ c ≤ m0.stop
      · have hstop : m0.stop = c := by omega
        have := hfirst m0 (List.mem_cons_self m0 ms) hstop
        omega
      · rw [linkLoop, if_neg hcont]
        exact ih m0.stop hch2 ht
          (fun m2 hm2 hs => hfirst m2 (List.mem_cons_of_mem m0 hm2) hs)

/-- The trimmed path of every occurrence of a well-formed line is
non-empty. -/
theorem occList_trim_ne (segs : List LSeg) (hwf : lineWF segs = true) :
    ∀ m ∈ occList segs, ¬ trimWs m.path = [] := by
  induction segs with
  | nil =>
    intro m hm
    cases hm
  | cons seg rest ih =>
    intro m hm
    rw [lineWF, List.all_cons, Bool.and_eq_true] at hwf
    obtain ⟨hseg, hrest⟩ := hwf
    cases seg with
    | gap g =>
      obtain ⟨m0, hm0, hme⟩ := List.mem_map.mp hm
      have hp : m0.path = m.path := by
        rw [← hme]
        rfl
      rw [← hp]
      exact ih hrest m0 hm0
    | occ p ti =>
      rcases List.mem_cons.mp hm with he | ht
      · simp only [lsegWF, Bool.and_eq_true] at hseg
        have hne : ¬ (trimWs p).isEmpty = true := by
          simpa using hseg.1.1.2
        rw [he]
        show ¬ trimWs p = []
        intro hcon
        apply hne
        rw [hcon]
        rfl
      · obtain ⟨m0, hm0, hme⟩ := List.mem_map.mp ht
        have hp : m0.path = m.path := by
          rw [← hme]
          rfl
        rw [← hp]
        exact ih hrest m0 hm0

/-- C6 counterexample: on the line `[[a]][[b]]` the two occurrences are
`[0,5)` and `[5,10)`; the cursor offset 5 lies inclusively in both, and
the locator returns the FIRST occurrence's target `a` — not the target
`b` of the occurrence whose `matchStart` is 5, as the claim requires for
every occurrence/offset pair. -/
theorem locator_adjacent_boundary :
    lineWF [LSeg.occ "a".data none, LSeg.occ "b".data none] = true ∧
    occList [LSeg.occ "a".data none, LSeg.occ "b".data none] =
      [⟨0, 5, "a".data, none⟩, ⟨5, 10, "b".data, none⟩] ∧
    wiki_link_at (lineOf [LSeg.occ "a".data none, LSeg.occ "b".data none]) 5 =
      some ("a".data, none) ∧
    some ("a".data, (none : Option (List Char))) ≠ some ("b".data, none) := by
  refine ⟨by decide, by decide, by decide, by decide⟩

/-- C6 amended: for every well-formed occurrence on a well-formed line
and every cursor offset `c` with `matchStart ≤ c ≤ matchEnd`, the locator
returns that occurrence's exact target and optional title, both trimmed —
provided no earlier occurrence also ends exactly at `c` (adjacent
occurrences share the boundary offset, and the leftmost containing
occurrence wins). -/
theorem locator_correct (segs : List LSeg) (c : Nat) (m : WMatch)
    (hwf : lineWF segs = true) (hm : m ∈ occList segs)
    (h1 : m.start ≤ c) (h2 : c ≤ m.stop)
    (hfirst : ∀ m2 ∈ occList segs, m2.stop = c → m.start ≤ m2.start) :
    wiki_link_at (lineOf segs) c =
      some (trimWs m.path, m.title.map trimWs) := by
  unfold wiki_link_at containingMatch scanMatches
  rw [scanAux_line segs hwf]
  rw [linkLoop_finds c 0 (occList segs) m (chainedFrom_occList segs) hm h1 h2
    hfirst]
  dsimp only
  rw [if_neg (occList_trim_ne segs hwf m hm)]

/-- Witness for C6 amended on a concrete line with a gap and one
occurrence. -/
theorem locator_correct_witness :
    (lineWF [LSeg.gap "go ".data, LSeg.occ "dest".data none] = true ∧
      (⟨3, 11, "dest".data, none⟩ : WMatch) ∈
        occList [LSeg.gap "go ".data, LSeg.occ "dest".data none]) ∧
    wiki_link_at (lineOf [LSeg.gap "go ".data, LSeg.occ "dest".data none]) 5 =
      some (trimWs "dest".data, Option.map trimWs none) :=
  ⟨⟨by decide, by decide⟩,
    locator_correct [LSeg.gap "go ".data, LSeg.occ "dest".data none] 5
      ⟨3, 11, "dest".data, none⟩ (by decide) (by decide) (by decide)
      (by decide) (by decide)⟩


end Ncylsp
